import Mathlib

/-!
Verification development for the image-to-phone-number extraction pipeline.

The program has four parts that the claims concern:
* `extractIndianNumbers` (services/ocrService): scans recognized text with the
  JavaScript regex `(?:(?:\+91|91|0)?[ -]?)?([6-9]\d{9})\b` under global
  leftmost non-overlapping matching, normalizes each captured 10-digit group by
  prepending "91", and deduplicates insertion-ordered (a JS `Set`).
* `performOCR` (services/ocrService): creates a Tesseract worker, recognizes,
  terminates the worker and returns text; any failure is caught and re-thrown
  as `Error('Failed to extract text from image')`.
* `preprocessImage` / `sharpen` (services/imageProcessing): per-pixel
  grayscale+threshold, then a 3x3 sharpening convolution whose results are
  stored into a `Uint8ClampedArray` (saturating store, alpha forced to 255).
* `handleFileUpload` (App): truncates the file list to `MAX_FILES`, creates one
  pending job per file, and processes files strictly sequentially with a
  per-file try/catch updating job records.

Text is modelled as `List Char`.  JavaScript numbers appearing here are exact:
pixel sums and channel values are integers, and the grayscale average
`(R+G+B)/3` is modelled as a rational (the binary64 rounding of `k/3` never
moves it across a comparison threshold of the code, nor across a
rounding-to-byte boundary, since the exact value is always at distance `0` or
`1/3` from an integer), so `Nat`/`Int`/`Rat` faithfully represent every value
the code computes.
-/

/-! ### Character classes of the regex

`\d` of the JavaScript regex is `[0-9]`, which is exactly `Char.isDigit`.
A word character for `\b` (no `u` flag) is `[A-Za-z0-9_]`. -/

/-- A word character in the sense of the JavaScript `\b` assertion. -/
def isWordChar (c : Char) : Bool :=
  c.isDigit || c.isAlpha || c == '_'

/-- The character class `[6-9]` that must open the captured 10-digit run. -/
def isMobileStart (c : Char) : Bool :=
  '6' ≤ c && c ≤ '9'

/-- `startsWith pat s` : does `s` begin with the literal characters `pat`? -/
def startsWith : List Char → List Char → Bool
  | [], _ => true
  | _ :: _, [] => false
  | p :: ps, c :: cs => p == c && startsWith ps cs

/-! ### The regex matcher

`(?:(?:\+91|91|0)?[ -]?)?([6-9]\d{9})\b`, embedded with the backtracking
order of a JavaScript engine: the alternation tries `+91`, `91`, `0`, then the
empty prefix; the greedy `[ -]?` consumes a separator when present and
backtracks to consuming nothing; `([6-9]\d{9})` is the capture; `\b` after a
digit demands that the next character not be a word character (or end of
input). -/

/-- The `\b` test after the ten digits: end of input or a non-word char. -/
def boundaryOk : List Char → Bool
  | [] => true
  | c :: _ => !isWordChar c

/-- `\x28[6-9]\d{9}\x29\b` at the head of `t`: on success, the captured ten
digits together with the input remaining after the match. -/
def runMatch (t : List Char) : Option (List Char × List Char) :=
  match t with
  | [] => none
  | c :: rest =>
    if isMobileStart c && ((rest.take 9).length == 9)
        && (rest.take 9).all Char.isDigit && boundaryOk (rest.drop 9) then
      some (c :: rest.take 9, rest.drop 9)
    else
      none

/-- `[ -]?([6-9]\d{9})\b` at the head of `t`, separator consumed greedily. -/
def afterPfx (t : List Char) : Option (List Char × List Char) :=
  match t with
  | [] => none
  | c :: rest =>
    if c == ' ' || c == '-' then
      match runMatch rest with
      | some r => some r
      | none => runMatch t
    else
      runMatch t

/-- Try one literal prefix alternative, then `[ -]?` and the capture. -/
def tryPfx (p : List Char) (s : List Char) : Option (List Char × List Char) :=
  if startsWith p s then afterPfx (s.drop p.length) else none

/-- The whole pattern at the head of `s`, alternatives in the engine's order. -/
def tryMatch (s : List Char) : Option (List Char × List Char) :=
  match tryPfx ['+', '9', '1'] s with
  | some r => some r
  | none =>
    match tryPfx ['9', '1'] s with
    | some r => some r
    | none =>
      match tryPfx ['0'] s with
      | some r => some r
      | none => afterPfx s

/-- Global scan (`matchAll`): leftmost match, then resume right after it.
`fuel` bounds the recursion; `scan` supplies `s.length`, which suffices
because every match consumes at least the ten captured characters. -/
def scanFuel : Nat → List Char → List (List Char)
  | 0, _ => []
  | _ + 1, [] => []
  | fuel + 1, c :: rest =>
    match tryMatch (c :: rest) with
    | some (cap, after) => cap :: scanFuel fuel after
    | none => scanFuel fuel rest

/-- All captures of the global regex scan over `s`, in match order. -/
def scan (s : List Char) : List (List Char) :=
  scanFuel s.length s

/-- Normalization of one capture: `results.add('91' + match[1])`. -/
def normalizeCap (cap : List Char) : List Char :=
  '9' :: '1' :: cap

/-- Insertion-ordered deduplication (a JS `Set` walked by `Array.from`):
`seen` accumulates the values already emitted. -/
def dedupAux (seen : List (List Char)) : List (List Char) → List (List Char)
  | [] => []
  | x :: xs =>
    if x ∈ seen then dedupAux seen xs
    else x :: dedupAux (x :: seen) xs

/-- First-seen-order deduplication. -/
def dedupFirst (l : List (List Char)) : List (List Char) :=
  dedupAux [] l

/-- `extractIndianNumbers` of services/ocrService: scan, normalizeCap each
capture to `"91" ++ run`, deduplicate in first-seen order. -/
def extractIndianNumbers (text : List Char) : List (List Char) :=
  dedupFirst ((scan text).map normalizeCap)

/-! ### Spec-side matcher (§4.3 of the spec, C1)

The spec describes the same pattern in words; we transcribe those words with
the boundary test as a parameter: the claim reads the token boundary as "not
immediately followed by another digit", the code's `\b` is "not immediately
followed by a word character".  The combination list enumerates "one of the
literal prefixes `+91`, `91`, or `0`" with "at most one optional separator
character (space or hyphen)", in the engine's preference order. -/

/-- Spec reading of C1's parenthetical: the run must not be followed by a digit. -/
def digitBoundary : List Char → Bool
  | [] => true
  | c :: _ => !c.isDigit

/-- Spec-side capture: a 10-digit run opening with `[6-9]`, then the boundary. -/
def specRun (bTest : List Char → Bool) (t : List Char) :
    Option (List Char × List Char) :=
  if ((t.take 10).length == 10) && (t.take 10).all Char.isDigit
      && (match (t.take 10).head? with | some c => isMobileStart c | none => false)
      && bTest (t.drop 10) then
    some (t.take 10, t.drop 10)
  else
    none

/-- The prefix/separator combinations of the spec's pattern, in order. -/
def specCombos : List (List Char × List Char) :=
  [ (['+', '9', '1'], [' ']), (['+', '9', '1'], ['-']), (['+', '9', '1'], []),
    (['9', '1'], [' ']), (['9', '1'], ['-']), (['9', '1'], []),
    (['0'], [' ']), (['0'], ['-']), (['0'], []),
    ([], [' ']), ([], ['-']), ([], []) ]

/-- One spec combination: literal prefix, then separator, then the run. -/
def specTryCombo (bTest : List Char → Bool) (p sep s : List Char) :
    Option (List Char × List Char) :=
  if startsWith (p ++ sep) s then specRun bTest (s.drop (p ++ sep).length)
  else none

/-- Spec-side match attempt at the head of `s`: first combination that works. -/
def specMatchAt (bTest : List Char → Bool) (s : List Char) :
    Option (List Char × List Char) :=
  specCombos.findSome? (fun pr => specTryCombo bTest pr.1 pr.2 s)

/-- Spec-side global scan, leftmost non-overlapping. -/
def specScanFuel (bTest : List Char → Bool) : Nat → List Char → List (List Char)
  | 0, _ => []
  | _ + 1, [] => []
  | fuel + 1, c :: rest =>
    match specMatchAt bTest (c :: rest) with
    | some (cap, after) => cap :: specScanFuel bTest fuel after
    | none => specScanFuel bTest fuel rest

/-- Spec-side scan of a whole text. -/
def specScan (bTest : List Char → Bool) (s : List Char) : List (List Char) :=
  specScanFuel bTest s.length s

/-- Spec-side extraction: scan, prepend `91`, deduplicate first-seen. -/
def specExtract (bTest : List Char → Bool) (text : List Char) :
    List (List Char) :=
  dedupFirst ((specScan bTest text).map normalizeCap)

/-- The spec's deduplication described independently: fold left, appending a
value the first time it is seen ("collect into a set, return in first-seen
order"). -/
def specFirstSeen (l : List (List Char)) : List (List Char) :=
  l.foldl (fun acc x => if x ∈ acc then acc else acc ++ [x]) []

/-! ### Image enhancer (services/imageProcessing)

An image is a pixel grid: width, height, and a total function from
coordinates to RGBA channel values; the code's flat `ImageData` array index
`(y*w + x)*4 + ch` corresponds to `pix x y`.  Channel reads out of bounds
never occur (the convolution guards them exactly as the code does). -/

/-- One RGBA pixel; channel values are the bytes of the `ImageData` buffer. -/
structure Pix where
  r : Nat
  g : Nat
  b : Nat
  a : Nat
deriving DecidableEq, Repr

/-- A decoded raster: dimensions and the pixel grid. -/
structure Img where
  w : Nat
  h : Nat
  pix : Nat → Nat → Pix

/-- Rounding applied by a `Uint8ClampedArray` store: nearest, ties to even. -/
def rdHalfEven (q : ℚ) : ℤ :=
  if q - ⌊q⌋ < 1/2 then ⌊q⌋
  else if 1/2 < q - ⌊q⌋ then ⌊q⌋ + 1
  else if ⌊q⌋ % 2 = 0 then ⌊q⌋ else ⌊q⌋ + 1

/-- `ToUint8Clamp`: what `data[i] = v` stores for a (possibly fractional)
numeric value `v` — round half to even, saturate into `[0, 255]`. -/
def toUint8Clamp (q : ℚ) : ℕ :=
  (rdHalfEven q).toNat.min 255

/-- `avg = (data[i] + data[i+1] + data[i+2]) / 3` of the grayscale loop. -/
def avgQ (p : Pix) : ℚ :=
  ((p.r : ℚ) + p.g + p.b) / 3

/-- `value = avg > 128 ? 255 : (avg < 50 ? 0 : avg)` — the number the code
assigns to the three color channels, before the clamped byte store. -/
def grayValueQ (p : Pix) : ℚ :=
  if avgQ p > 128 then 255 else if avgQ p < 50 then 0 else avgQ p

/-- The byte actually stored for each color channel by the grayscale loop. -/
def grayValue (p : Pix) : ℕ :=
  toUint8Clamp (grayValueQ p)

/-- Stage 1 of `preprocessImage`: grayscale + threshold contrast, alpha kept. -/
def grayscaleStage (img : Img) : Img :=
  { img with pix := fun x y =>
      { r := grayValue (img.pix x y), g := grayValue (img.pix x y),
        b := grayValue (img.pix x y), a := (img.pix x y).a } }

/-- The same three-way threshold expressed over the integer channel sum
`s = R+G+B`: `avg > 128` iff `s > 384`, `avg < 50` iff `s < 150`, and the
clamped store of `s/3` is `(s+1)/3` in natural division (rounding `k/3`
half-to-even never meets a tie). -/
def natThreeWay (s : ℕ) : ℕ :=
  if 384 < s then 255 else if s < 150 then 0 else (s + 1) / 3

/-- One tap of the 3x3 convolution: the contribution of source pixel
`(x1-1, y1-1)` with weight `wt`, zero when that pixel is out of bounds
(`scy >= 0 && scy < sh && scx >= 0 && scx < sw` in the code, with
`scx = x1-1`, `scy = y1-1`). -/
def tap (img : Img) (ch : Pix → ℕ) (x1 y1 : ℕ) (wt : ℤ) : ℤ :=
  if 1 ≤ x1 ∧ x1 ≤ img.w ∧ 1 ≤ y1 ∧ y1 ≤ img.h then
    wt * (ch (img.pix (x1 - 1) (y1 - 1)) : ℤ)
  else 0

/-- The inner double loop of `sharpen` for one output pixel and one channel:
the nine taps of the kernel `[0,-1,0, -1,5,-1, 0,-1,0]`, row by row
(`x1 = x + cx`, `y1 = y + cy` with `halfSide = 1`). -/
def convChannel (img : Img) (ch : Pix → ℕ) (x y : ℕ) : ℤ :=
  tap img ch x y 0 + tap img ch (x + 1) y (-1) + tap img ch (x + 2) y 0
    + tap img ch x (y + 1) (-1) + tap img ch (x + 1) (y + 1) 5
    + tap img ch (x + 2) (y + 1) (-1)
    + tap img ch x (y + 2) 0 + tap img ch (x + 1) (y + 2) (-1)
    + tap img ch (x + 2) (y + 2) 0

/-- What `dst[i] = v` stores for the integer convolution sum `v`: the
`Uint8ClampedArray` saturates into `[0, 255]`. -/
def clampByte (z : ℤ) : ℕ :=
  z.toNat.min 255

/-- `sharpen`: per-channel 3x3 convolution into a fresh buffer, alpha 255. -/
def sharpen (img : Img) : Img :=
  { img with pix := fun x y =>
      { r := clampByte (convChannel img Pix.r x y),
        g := clampByte (convChannel img Pix.g x y),
        b := clampByte (convChannel img Pix.b x y),
        a := 255 } }

/-- `preprocessImage`: grayscale+threshold pass, then the sharpening pass. -/
def preprocessImage (img : Img) : Img :=
  sharpen (grayscaleStage img)

/-- An image every pixel of which is `p`. -/
def constImg (w h : ℕ) (p : Pix) : Img :=
  ⟨w, h, fun _ _ => p⟩

/-! ### Recognition adapter (`performOCR` of services/ocrService)

The Tesseract engine is opaque: an `Engine` records whether `createWorker`
and `worker.recognize` succeed, and with what text or error.  `performOCR`
is the code's control flow: create, recognize, terminate, return — with the
whole body in a `try` whose `catch` re-throws a fixed human-readable
message.  `events` is the trace of resource actions actually performed. -/

/-- Outcome of a fallible stage: a value, or a thrown error's message. -/
inductive StageRes (α : Type) where
  | ok (val : α)
  | err (msg : List Char)
deriving DecidableEq, Repr

/-- Resource actions on the Tesseract worker. -/
inductive REvent where
  | createW
  | terminateW
deriving DecidableEq, Repr

/-- Behaviour of the opaque engine for one `performOCR` call. -/
structure Engine where
  createWorker : StageRes Unit
  recognize : StageRes (List Char)
deriving DecidableEq, Repr

/-- Result of one `performOCR` call: outcome plus the resource trace. -/
structure OCRRun where
  result : StageRes (List Char)
  events : List REvent
deriving DecidableEq, Repr

/-- The fixed message of the `catch` block. -/
def ocrFailMsg : List Char :=
  "Failed to extract text from image".data

/-- `performOCR`: `createWorker`; `worker.recognize`; `worker.terminate()`;
return text.  A throw anywhere jumps to the `catch`, which throws
`Error('Failed to extract text from image')` — note the `catch` does not
terminate the worker. -/
def performOCR (e : Engine) : OCRRun :=
  match e.createWorker with
  | .err _ => { result := .err ocrFailMsg, events := [] }
  | .ok _ =>
    match e.recognize with
    | .err _ => { result := .err ocrFailMsg, events := [.createW] }
    | .ok text =>
      { result := .ok text, events := [.createW, .terminateW] }

/-- An engine whose `recognize` throws (after a successful `createWorker`). -/
def engFail : Engine :=
  { createWorker := .ok (), recognize := .err ("engine crash".data) }

/-! ### Job orchestrator (`handleFileUpload` of App)

One `ProcessingResult` record per accepted file.  The `id` of the code is a
fresh random string used only to address the record inside `setResults`
updates; since ids are unique, updating "the record whose id is
`initialResults[i].id`" is updating position `i`, which is how `updAt`
models it.  `previewUrl` is presentation-only and omitted.  Each
`setResults` call publishes one new snapshot of the whole list; the trace of
those snapshots (starting with the initial all-pending list) is what
`handleFileUpload` returns here. -/

/-- The `status` field of a `ProcessingResult`. -/
inductive JStatus where
  | pending
  | processing
  | completed
  | error
deriving DecidableEq, Repr

/-- A `ProcessingResult` record (minus `id`/`previewUrl`, see above). -/
structure Job where
  fileName : List Char
  status : JStatus
  progress : ℤ
  rawText : Option (List Char)
  numbers : List (List Char)
  error : Option (List Char)
deriving DecidableEq, Repr

/-- Behaviour of the per-file pipeline stages for one uploaded file:
whether `preprocessImage` resolves or rejects, the progress fractions the
Tesseract logger reports while recognizing, and the OCR outcome. -/
structure FileBehavior where
  preprocess : StageRes Unit
  ocrEvents : List ℚ
  ocr : StageRes (List Char)
deriving DecidableEq

/-- One uploaded file: its name and its pipeline behaviour. -/
structure FileSpec where
  name : List Char
  behavior : FileBehavior
deriving DecidableEq

/-- `const MAX_FILES = 20`. -/
def MAX_FILES : ℕ := 20

/-- A freshly enqueued record: `status: 'pending', progress: 0, numbers: []`. -/
def initJob (name : List Char) : Job :=
  { fileName := name, status := .pending, progress := 0,
    rawText := none, numbers := [], error := none }

/-- `initialResults`: one pending record per accepted file, in input order. -/
def initJobs (fs : List FileSpec) : List Job :=
  fs.map (fun f => initJob f.name)

/-- Replace the record at position `i` (the record with that job's id). -/
def updAt : List Job → ℕ → (Job → Job) → List Job
  | [], _, _ => []
  | j :: rest, 0, f => f j :: rest
  | j :: rest, n + 1, f => j :: updAt rest n f

/-- `{ ...r, status: 'processing' }`. -/
def setProcessing (j : Job) : Job :=
  { j with status := .processing }

/-- `{ ...r, progress: Math.round(progress * 100) }`. -/
def setProgress (p : ℤ) (j : Job) : Job :=
  { j with progress := p }

/-- `{ ...r, status: 'error', error: error.message }`. -/
def setError (msg : List Char) (j : Job) : Job :=
  { j with status := .error, error := some msg }

/-- `{ ...r, status: 'completed', progress: 100, rawText: text, numbers }`. -/
def setCompleted (text : List Char) (j : Job) : Job :=
  { j with
      status := .completed,
      progress := 100,
      rawText := some text,
      numbers := extractIndianNumbers text }

/-- `Math.round(x)`: nearest integer, ties toward `+∞`. -/
def jsRound (q : ℚ) : ℤ :=
  ⌊q + 1/2⌋

/-- The progress-callback updates of one OCR call: each logger event with
fraction `p` publishes a snapshot with `progress := Math.round(p * 100)`.
Returns the published snapshots and the state after the last one. -/
def progressSteps (i : ℕ) : List ℚ → List Job → List (List Job) × List Job
  | [], s => ([], s)
  | p :: ps, s =>
    (((updAt s i (setProgress (jsRound (p * 100)))) ::
        (progressSteps i ps (updAt s i (setProgress (jsRound (p * 100))))).1),
      (progressSteps i ps (updAt s i (setProgress (jsRound (p * 100))))).2)

/-- One iteration of the upload loop (the body of `for (let i = 0; ...)`),
processing file `i`: mark processing, preprocess, OCR with progress
callbacks, extract, mark completed — any stage failure jumps to the `catch`,
which marks the job failed with the error's message.  Returns the published
snapshots, in order, and the final state. -/
def runJob (i : ℕ) (b : FileBehavior) (s : List Job) :
    List (List Job) × List Job :=
  match b.preprocess with
  | .err msg =>
    ([updAt s i setProcessing,
      updAt (updAt s i setProcessing) i (setError msg)],
     updAt (updAt s i setProcessing) i (setError msg))
  | .ok _ =>
    match b.ocr with
    | .err msg =>
      ((updAt s i setProcessing) ::
        (progressSteps i b.ocrEvents (updAt s i setProcessing)).1 ++
        [updAt (progressSteps i b.ocrEvents (updAt s i setProcessing)).2 i
          (setError msg)],
       updAt (progressSteps i b.ocrEvents (updAt s i setProcessing)).2 i
         (setError msg))
    | .ok text =>
      ((updAt s i setProcessing) ::
        (progressSteps i b.ocrEvents (updAt s i setProcessing)).1 ++
        [updAt (progressSteps i b.ocrEvents (updAt s i setProcessing)).2 i
          (setCompleted text)],
       updAt (progressSteps i b.ocrEvents (updAt s i setProcessing)).2 i
         (setCompleted text))

/-- The upload loop over the remaining files, file `i` first. -/
def runJobs (i : ℕ) : List FileSpec → List Job → List (List Job) × List Job
  | [], s => ([], s)
  | f :: fs, s =>
    ((runJob i f.behavior s).1 ++
      (runJobs (i + 1) fs (runJob i f.behavior s).2).1,
     (runJobs (i + 1) fs (runJob i f.behavior s).2).2)

/-- `handleFileUpload`: truncate to `MAX_FILES`, publish the initial pending
records, then process each file sequentially.  The value is the full trace
of published `results` snapshots. -/
def handleFileUpload (fs : List FileSpec) : List (List Job) :=
  initJobs (fs.take MAX_FILES) ::
    (runJobs 0 (fs.take MAX_FILES) (initJobs (fs.take MAX_FILES))).1

/-- The `results` state once the loop has finished. -/
def finalResults (fs : List FileSpec) : List Job :=
  (runJobs 0 (fs.take MAX_FILES) (initJobs (fs.take MAX_FILES))).2

/-- The final record of job `i`, determined by that file's behaviour alone:
preprocess failure → failed with its message before any progress events; OCR
failure → failed with its message after the progress updates; success →
completed with the text, progress 100, and the extracted numbers. -/
def expectedFrom (b : FileBehavior) (j : Job) : Job :=
  match b.preprocess with
  | .err msg => setError msg (setProcessing j)
  | .ok _ =>
    match b.ocr with
    | .err msg =>
      setError msg
        { setProcessing j with
            progress := b.ocrEvents.foldl
              (fun _ p => jsRound (p * 100)) j.progress }
    | .ok text =>
      setCompleted text
        { setProcessing j with
            progress := b.ocrEvents.foldl
              (fun _ p => jsRound (p * 100)) j.progress }

/-- Fallback record for out-of-range reads. -/
def dummyJob : Job := initJob []

/-- Fallback file for out-of-range reads. -/
def dummyFile : FileSpec := { name := [], behavior := ⟨.ok (), [], .ok []⟩ }

/-- The status of job `k` in snapshot `s`. -/
def statusAt (s : List Job) (k : ℕ) : JStatus :=
  (s.getD k dummyJob).status

/-- No two jobs are simultaneously in the processing state. -/
def noTwoProcessing (s : List Job) : Prop :=
  ∀ i j, i < s.length → j < s.length → statusAt s i = JStatus.processing →
    statusAt s j = JStatus.processing → i = j

/-- Whenever a later job has left `pending`, every earlier job is terminal:
processing starts in submission order and only after the previous job has
completed or failed. -/
def startOrdered (s : List Job) : Prop :=
  ∀ i j, i < j → j < s.length → statusAt s j ≠ JStatus.pending →
    statusAt s i = JStatus.completed ∨ statusAt s i = JStatus.error

/-! ### Concrete inputs used by counterexamples and witnesses -/

/-- The 10-digit run `9876543210` of the spec's examples. -/
def tgtRun : List Char := "9876543210".data

/-- Its normalization `919876543210`. -/
def norm12 : List Char := "919876543210".data

/-- A text containing `9876543210` immediately followed by a letter. -/
def exLetterText : List Char := "9876543210a".data

/-- A text containing `9876543210` immediately followed by another digit. -/
def exDigitText : List Char := "98765432100".data

/-- A text containing the three prefix variants of the spec's dedup example
as substrings, each embedded so that the `\b` boundary fails (followed by a
digit run or a letter): the program extracts nothing from it. -/
def trickyText : List Char := "+91 98765432100919876543210a09876543210b".data

/-- The needle `+91 9876543210`. -/
def needleP91 : List Char := "+91 9876543210".data

/-- The needle `09876543210`. -/
def needleZ : List Char := "09876543210".data

/-- The three prefix variants separated by spaces (token boundaries hold). -/
def delimText : List Char := "+91 9876543210 919876543210 09876543210".data

/-- `hasSubstring needle hay`: does `needle` occur contiguously in `hay`? -/
def hasSubstring (needle : List Char) : List Char → Bool
  | [] => startsWith needle []
  | c :: rest => startsWith needle (c :: rest) || hasSubstring needle rest

/-- Space-joining of the extracted numbers, for the idempotence claim:
"the text obtained by joining the already-extracted normalized numbers". -/
def joinNumbers : List (List Char) → List Char
  | [] => []
  | [n] => n
  | n :: m :: rest => n ++ ' ' :: joinNumbers (m :: rest)

/-- The shape of every normalized number: `'9' :: '1' ::` a ten-character
run that opens with `[6-9]` and consists of digits. -/
def IsNum (n : List Char) : Prop :=
  ∃ c cs, n = '9' :: '1' :: c :: cs ∧ cs.length = 9 ∧
    isMobileStart c = true ∧ (c :: cs).all Char.isDigit = true

/-- A 3x3 uniform mid-gray-average image that is not gray channel-wise. -/
def imgTinted : Img := constImg 3 3 ⟨60, 70, 80, 255⟩

/-- The pixel `(51, 51, 52)`: its channel average is `154/3`. -/
def pixMid : Pix := ⟨51, 51, 52, 0⟩

/-- Batch of the spec's failure example: job 2 of 3 fails (enhancer throws),
jobs 1 and 3 succeed with valid input. -/
def demoBatch : List FileSpec :=
  [ { name := "a.png".data,
      behavior := ⟨.ok (), [], .ok ("call 9876543210".data)⟩ },
    { name := "b.png".data,
      behavior := ⟨.err ("decode failure".data), [], .ok []⟩ },
    { name := "c.png".data,
      behavior := ⟨.ok (), [], .ok []⟩ } ]

/-- A text with no digit run at all. -/
def noMatchText : List Char := "hello".data

/-! ## Helper lemmas: characters and `startsWith` -/

theorem mobile_isDigit {c : Char} (h : isMobileStart c = true) :
    c.isDigit = true := by
  simp only [isMobileStart, Bool.and_eq_true, decide_eq_true_eq] at h
  simp only [Char.isDigit, Bool.and_eq_true, decide_eq_true_eq]
  exact ⟨le_trans (show ('0' : Char) ≤ '6' by decide) h.1, h.2⟩

theorem mobile_ne_space {c : Char} (h : isMobileStart c = true) :
    (c == ' ') = false := by
  simp only [isMobileStart, Bool.and_eq_true, decide_eq_true_eq] at h
  refine beq_eq_false_iff_ne.mpr ?_
  rintro rfl
  exact absurd h.1 (by decide)

theorem mobile_ne_hyphen {c : Char} (h : isMobileStart c = true) :
    (c == '-') = false := by
  simp only [isMobileStart, Bool.and_eq_true, decide_eq_true_eq] at h
  refine beq_eq_false_iff_ne.mpr ?_
  rintro rfl
  exact absurd h.1 (by decide)

theorem digit_isWordChar {c : Char} (h : c.isDigit = true) :
    isWordChar c = true := by
  simp [isWordChar, h]

theorem startsWith_decomp :
    ∀ p s : List Char, startsWith p s = true → s = p ++ s.drop p.length := by
  intro p
  induction p with
  | nil => intro s _; simp
  | cons a ps ih =>
    intro s h
    match s with
    | [] => simp [startsWith] at h
    | c :: cs =>
      simp only [startsWith, Bool.and_eq_true, beq_iff_eq] at h
      obtain ⟨rfl, h2⟩ := h
      simpa using congrArg (a :: ·) (ih cs h2)

/-! ## Helper lemmas: structure of a successful match -/

theorem runMatch_eq_some {t cap after : List Char}
    (h : runMatch t = some (cap, after)) :
    t = cap ++ after ∧ cap.length = 10 ∧ cap.all Char.isDigit = true ∧
      (∃ c cs, cap = c :: cs ∧ isMobileStart c = true) ∧
      boundaryOk after = true := by
  match t with
  | [] => simp [runMatch] at h
  | c :: rest =>
    simp only [runMatch] at h
    split at h
    case isTrue hcond =>
      obtain ⟨⟨⟨hm, hlen⟩, hdig⟩, hbd⟩ := by
        simpa only [Bool.and_eq_true] using hcond
      obtain ⟨rfl, rfl⟩ : cap = c :: rest.take 9 ∧ after = rest.drop 9 := by
        have := h
        simp only [Option.some.injEq, Prod.mk.injEq] at this
        exact ⟨this.1.symm, this.2.symm⟩
      have hl9 : (rest.take 9).length = 9 := by simpa using hlen
      refine ⟨by simp, by simp [hl9], ?_, ⟨c, rest.take 9, rfl, hm⟩, hbd⟩
      simp [List.all_cons, mobile_isDigit hm, hdig]
    case isFalse => exact absurd h (by simp)

theorem afterPfx_eq_some {t cap after : List Char}
    (h : afterPfx t = some (cap, after)) :
    ∃ sp : List Char, sp.length ≤ 1 ∧ t = sp ++ cap ++ after ∧
      cap.length = 10 ∧ cap.all Char.isDigit = true ∧
      (∃ c cs, cap = c :: cs ∧ isMobileStart c = true) ∧
      boundaryOk after = true := by
  match t with
  | [] => simp [afterPfx] at h
  | c :: rest =>
    simp only [afterPfx] at h
    split at h
    case isTrue =>
      match hr : runMatch rest with
      | some r =>
        rw [hr] at h
        obtain rfl : r = (cap, after) := by simpa using h
        obtain ⟨h1, h2⟩ := runMatch_eq_some hr
        exact ⟨[c], by simp, by simp [← h1], h2⟩
      | none =>
        rw [hr] at h
        obtain ⟨h1, h2⟩ := runMatch_eq_some h
        exact ⟨[], by simp, by simpa using h1, h2⟩
    case isFalse =>
      obtain ⟨h1, h2⟩ := runMatch_eq_some h
      exact ⟨[], by simp, by simpa using h1, h2⟩

theorem tryPfx_eq_some {p s cap after : List Char}
    (h : tryPfx p s = some (cap, after)) :
    ∃ pf : List Char, pf.length ≤ p.length + 1 ∧ s = pf ++ cap ++ after ∧
      cap.length = 10 ∧ cap.all Char.isDigit = true ∧
      (∃ c cs, cap = c :: cs ∧ isMobileStart c = true) ∧
      boundaryOk after = true := by
  simp only [tryPfx] at h
  split at h
  case isTrue hsw =>
    obtain ⟨sp, hsp, hdec, hrest⟩ := afterPfx_eq_some h
    refine ⟨p ++ sp, by simp; omega, ?_, hrest⟩
    rw [startsWith_decomp p s hsw, hdec]
    simp
  case isFalse => exact absurd h (by simp)

theorem tryMatch_eq_some {s cap after : List Char}
    (h : tryMatch s = some (cap, after)) :
    ∃ pf : List Char, pf.length ≤ 4 ∧ s = pf ++ cap ++ after ∧
      cap.length = 10 ∧ cap.all Char.isDigit = true ∧
      (∃ c cs, cap = c :: cs ∧ isMobileStart c = true) ∧
      boundaryOk after = true := by
  simp only [tryMatch] at h
  match h1 : tryPfx ['+', '9', '1'] s with
  | some r =>
    rw [h1] at h
    obtain rfl : r = (cap, after) := by simpa using h
    obtain ⟨pf, hpf, hrest⟩ := tryPfx_eq_some h1
    exact ⟨pf, by simpa using hpf, hrest⟩
  | none =>
    rw [h1] at h
    match h2 : tryPfx ['9', '1'] s with
    | some r =>
      rw [h2] at h
      obtain rfl : r = (cap, after) := by simpa using h
      obtain ⟨pf, hpf, hrest⟩ := tryPfx_eq_some h2
      exact ⟨pf, by simp at hpf ⊢; omega, hrest⟩
    | none =>
      rw [h2] at h
      match h3 : tryPfx ['0'] s with
      | some r =>
        rw [h3] at h
        obtain rfl : r = (cap, after) := by simpa using h
        obtain ⟨pf, hpf, hrest⟩ := tryPfx_eq_some h3
        exact ⟨pf, by simp at hpf ⊢; omega, hrest⟩
      | none =>
        rw [h3] at h
        obtain ⟨sp, hsp, hrest⟩ := afterPfx_eq_some h
        exact ⟨sp, by omega, hrest⟩

theorem tryMatch_nil : tryMatch [] = none := by decide

theorem tryMatch_some_length {s cap after : List Char}
    (h : tryMatch s = some (cap, after)) : after.length + 10 ≤ s.length := by
  obtain ⟨pf, _, hdec, hlen, _⟩ := tryMatch_eq_some h
  subst hdec
  simp [hlen]
  omega

/-! ## Helper lemmas: the global scan -/

theorem scanFuel_congr :
    ∀ f1 : Nat, ∀ s : List Char, ∀ f2 : Nat, s.length ≤ f1 → s.length ≤ f2 →
      scanFuel f1 s = scanFuel f2 s := by
  intro f1
  induction f1 with
  | zero =>
    intro s f2 h1 _
    obtain rfl : s = [] := List.length_eq_zero.mp (Nat.le_zero.mp h1)
    cases f2 <;> rfl
  | succ f1 ih =>
    intro s f2 h1 h2
    match s with
    | [] => cases f2 <;> rfl
    | c :: rest =>
      match f2 with
      | 0 => simp at h2
      | f2 + 1 =>
        match htm : tryMatch (c :: rest) with
        | some (cap, after) =>
          have hlen := tryMatch_some_length htm
          simp only [List.length_cons] at h1 h2 hlen
          simp only [scanFuel, htm]
          rw [ih after f2 (by omega) (by omega)]
        | none =>
          simp only [List.length_cons] at h1 h2
          simp only [scanFuel, htm]
          exact ih rest f2 (by omega) (by omega)

theorem scan_cons_some {c : Char} {rest cap after : List Char}
    (h : tryMatch (c :: rest) = some (cap, after)) :
    scan (c :: rest) = cap :: scan after := by
  have hlen := tryMatch_some_length h
  simp only [List.length_cons] at hlen
  simp only [scan, List.length_cons, scanFuel, h]
  rw [scanFuel_congr rest.length after after.length (by omega) le_rfl]

theorem scan_cons_none {c : Char} {rest : List Char}
    (h : tryMatch (c :: rest) = none) : scan (c :: rest) = scan rest := by
  simp only [scan, List.length_cons, scanFuel, h]

theorem scan_nil : scan [] = [] := rfl

/-- Every capture the scan produces has the shape of the capture group. -/
theorem mem_scan_shape :
    ∀ n : Nat, ∀ s cap : List Char, s.length ≤ n → cap ∈ scan s →
      cap.length = 10 ∧ cap.all Char.isDigit = true ∧
        ∃ c cs, cap = c :: cs ∧ isMobileStart c = true := by
  intro n
  induction n with
  | zero =>
    intro s cap h1 hmem
    obtain rfl : s = [] := List.length_eq_zero.mp (Nat.le_zero.mp h1)
    simp [scan_nil] at hmem
  | succ n ih =>
    intro s cap h1 hmem
    match s with
    | [] => simp [scan_nil] at hmem
    | c :: rest =>
      simp only [List.length_cons] at h1
      match htm : tryMatch (c :: rest) with
      | some (cap2, after) =>
        rw [scan_cons_some htm] at hmem
        rcases List.mem_cons.mp hmem with rfl | hmem2
        · obtain ⟨pf, _, _, h10, hdig, hshape, _⟩ := tryMatch_eq_some htm
          exact ⟨h10, hdig, hshape⟩
        · have hlen := tryMatch_some_length htm
          simp only [List.length_cons] at hlen
          exact ih after cap (by omega) hmem2
      | none =>
        rw [scan_cons_none htm] at hmem
        exact ih rest cap (by omega) hmem

/-! ## Helper lemmas: deduplication -/

theorem mem_dedupAux {x : List Char} :
    ∀ l seen : List (List Char), x ∈ dedupAux seen l ↔ x ∈ l ∧ x ∉ seen := by
  intro l
  induction l with
  | nil => intro seen; simp [dedupAux]
  | cons y ys ih =>
    intro seen
    simp only [dedupAux]
    split
    case isTrue hy =>
      rw [ih seen]
      simp only [List.mem_cons]
      constructor
      · rintro ⟨h1, h2⟩; exact ⟨Or.inr h1, h2⟩
      · rintro ⟨rfl | h1, h2⟩
        · exact absurd hy h2
        · exact ⟨h1, h2⟩
    case isFalse hy =>
      simp only [List.mem_cons, ih (y :: seen), not_or]
      constructor
      · rintro (rfl | ⟨h1, hne, h2⟩)
        · exact ⟨Or.inl rfl, hy⟩
        · exact ⟨Or.inr h1, h2⟩
      · rintro ⟨rfl | h1, h2⟩
        · exact Or.inl rfl
        · by_cases hxy : x = y
          · exact Or.inl hxy
          · exact Or.inr ⟨h1, hxy, h2⟩

theorem mem_dedupFirst {x : List Char} {l : List (List Char)} :
    x ∈ dedupFirst l ↔ x ∈ l := by
  simp [dedupFirst, mem_dedupAux]

theorem nodup_dedupAux :
    ∀ l seen : List (List Char), (dedupAux seen l).Nodup := by
  intro l
  induction l with
  | nil => intro seen; simp [dedupAux]
  | cons y ys ih =>
    intro seen
    simp only [dedupAux]
    split
    · exact ih seen
    · refine List.nodup_cons.mpr ⟨?_, ih (y :: seen)⟩
      intro hmem
      exact absurd (List.mem_cons_self y seen)
        ((mem_dedupAux ys (y :: seen)).mp hmem).2

theorem nodup_dedupFirst {l : List (List Char)} : (dedupFirst l).Nodup :=
  nodup_dedupAux l []

theorem dedupAux_of_nodup :
    ∀ l seen : List (List Char), l.Nodup → (∀ x ∈ l, x ∉ seen) →
      dedupAux seen l = l := by
  intro l
  induction l with
  | nil => intro seen _ _; rfl
  | cons y ys ih =>
    intro seen hnd hdisj
    simp only [dedupAux]
    rw [if_neg (hdisj y (List.mem_cons_self y ys))]
    congr 1
    refine ih (y :: seen) (List.nodup_cons.mp hnd).2 ?_
    intro x hx
    simp only [List.mem_cons, not_or]
    exact ⟨fun hxy => (List.nodup_cons.mp hnd).1 (hxy ▸ hx),
      hdisj x (List.mem_cons_of_mem _ hx)⟩

theorem dedupFirst_of_nodup {l : List (List Char)} (h : l.Nodup) :
    dedupFirst l = l :=
  dedupAux_of_nodup l [] h (by simp)

theorem nodup_extract {text : List Char} :
    (extractIndianNumbers text).Nodup :=
  nodup_dedupFirst

/-- The spec's fold-left description of first-seen deduplication agrees with
the accumulator implementation. -/
theorem specFirstSeen_aux :
    ∀ l acc seen : List (List Char), (∀ x, x ∈ seen ↔ x ∈ acc) →
      l.foldl (fun a x => if x ∈ a then a else a ++ [x]) acc =
        acc ++ dedupAux seen l := by
  intro l
  induction l with
  | nil => intro acc seen _; simp [dedupAux]
  | cons y ys ih =>
    intro acc seen hiff
    simp only [List.foldl_cons, dedupAux]
    by_cases hy : y ∈ seen
    · rw [if_pos ((hiff y).mp hy), if_pos hy]
      exact ih acc seen hiff
    · rw [if_neg (fun hc => hy ((hiff y).mpr hc)), if_neg hy]
      rw [ih (acc ++ [y]) (y :: seen) ?_]
      · simp
      · intro x
        simp [List.mem_cons, hiff x, or_comm]

theorem specFirstSeen_eq_dedupFirst {l : List (List Char)} :
    specFirstSeen l = dedupFirst l := by
  simpa [specFirstSeen, dedupFirst] using specFirstSeen_aux l [] [] (by simp)

/-! ## Helper lemmas: computing the matcher on shaped inputs -/

theorem boundaryOk_cons {c : Char} {l : List Char} :
    boundaryOk (c :: l) = !isWordChar c := rfl

theorem runMatch_exact {c : Char} {cs post : List Char} (hlen : cs.length = 9)
    (hmob : isMobileStart c = true) (hdig : cs.all Char.isDigit = true)
    (hpost : boundaryOk post = true) :
    runMatch (c :: (cs ++ post)) = some (c :: cs, post) := by
  simp only [runMatch, List.take_left' hlen, List.drop_left' hlen]
  rw [if_pos]
  simp [hmob, hdig, hpost, hlen]

theorem tryMatch_eq_runMatch {s : List Char}
    (h1 : startsWith ['+', '9', '1'] s = false)
    (h2 : startsWith ['9', '1'] s = false)
    (h3 : startsWith ['0'] s = false)
    (h4 : ∀ c rest, s = c :: rest → ((c == ' ') || (c == '-')) = false) :
    tryMatch s = runMatch s := by
  simp only [tryMatch, tryPfx, h1, h2, h3, if_false, Bool.false_eq_true]
  match s with
  | [] => rfl
  | c :: rest =>
    simp only [afterPfx, h4 c rest rfl, Bool.false_eq_true, if_false]

/-- The pattern at the start of `tgtRun ++ post` matches `tgtRun` itself. -/
theorem tryMatch_target {post : List Char} (hpost : boundaryOk post = true) :
    tryMatch (tgtRun ++ post) = some (tgtRun, post) := by
  have hsplit : tgtRun ++ post =
      '9' :: ("876543210".data ++ post) := rfl
  rw [hsplit]
  rw [tryMatch_eq_runMatch]
  · exact runMatch_exact (by decide) (by decide) (by decide) hpost
  · simp only [startsWith]; decide
  · simp only [startsWith]; decide
  · simp only [startsWith]; decide
  · intro c rest h
    obtain rfl : c = '9' := by
      have := congrArg List.head? h
      simpa using this.symm
    decide

theorem tgtRun_word : ∀ c ∈ tgtRun, isWordChar c = true := by decide

theorem tgtRun_length : tgtRun.length = 10 := by decide

/-- If the capture of a successful match is not `tgtRun` and the text
decomposes as `pre ++ tgtRun ++ post` with a valid boundary after the
occurrence, then the whole match lies inside `pre`: the rest of the text
still contains the occurrence. -/
theorem match_overlap {s pfx cap after pre post : List Char}
    (hs1 : s = pfx ++ cap ++ after) (hs2 : s = pre ++ tgtRun ++ post)
    (hpl : pfx.length ≤ 4) (hcl : cap.length = 10)
    (hcd : cap.all Char.isDigit = true) (hba : boundaryOk after = true)
    (hbp : boundaryOk post = true) (hne : cap ≠ tgtRun) :
    after = pre.drop (pfx.length + 10) ++ tgtRun ++ post := by
  have hlpc : (pfx ++ cap).length = pfx.length + 10 := by simp [hcl]
  have hlpt : (pre ++ tgtRun).length = pre.length + 10 := by
    simp [tgtRun_length]
  by_cases hmi : pfx.length + 10 ≤ pre.length
  · have e1 : s.drop (pfx.length + 10) = after := by
      rw [hs1]
      exact List.drop_left' hlpc
    have e2 : s.drop (pfx.length + 10) =
        pre.drop (pfx.length + 10) ++ tgtRun ++ post := by
      rw [hs2, List.drop_append_eq_append_drop, List.drop_append_eq_append_drop]
      have hz1 : pfx.length + 10 - pre.length = 0 := by omega
      have hz2 : pfx.length + 10 - (pre ++ tgtRun).length = 0 := by
        rw [hlpt]; omega
      rw [hz1, hz2]
      simp
    rw [← e1, e2]
  · exfalso
    push_neg at hmi
    rcases Nat.lt_trichotomy (pfx.length + 10) (pre.length + 10) with h2 | h2 | h2
    · -- the match would end inside the digit occurrence
      have e1 : s[pfx.length + 10]? = after[0]? := by
        rw [hs1, List.getElem?_append_right (by simp [hcl]), hlpc]
        simp
      have e2 : s[pfx.length + 10]? =
          tgtRun[pfx.length + 10 - pre.length]? := by
        rw [hs2, List.getElem?_append_left (by rw [hlpt]; omega),
          List.getElem?_append_right (by omega)]
      have hlt : pfx.length + 10 - pre.length < tgtRun.length := by
        rw [tgtRun_length]; omega
      rw [List.getElem?_eq_getElem hlt] at e2
      have hw : isWordChar (tgtRun[pfx.length + 10 - pre.length]) = true :=
        tgtRun_word _ (List.getElem_mem hlt)
      rw [e2] at e1
      match after, e1 with
      | [], e1 => simp at e1
      | c :: l, e1 =>
        obtain rfl : tgtRun[pfx.length + 10 - pre.length] = c := by
          simpa using e1
        rw [boundaryOk_cons, hw] at hba
        simp at hba
    · -- the match would be the occurrence itself
      have hh : pfx ++ cap ++ after = pre ++ tgtRun ++ post := by
        rw [← hs1, ← hs2]
      obtain ⟨hcc, _⟩ := List.append_inj hh (by rw [hlpc, hlpt]; omega)
      obtain ⟨_, hcap⟩ := List.append_inj hcc (by omega)
      exact hne hcap
    · -- the match would start beyond the occurrence, impossible
      have e1 : s[pre.length + 10]? = post[0]? := by
        rw [hs2, List.getElem?_append_right (by simp [tgtRun_length]), hlpt]
        simp
      have e2 : s[pre.length + 10]? = cap[pre.length + 10 - pfx.length]? := by
        rw [hs1, List.getElem?_append_left (by rw [hlpc]; omega),
          List.getElem?_append_right (by omega)]
      have hlt : pre.length + 10 - pfx.length < cap.length := by
        rw [hcl]; omega
      rw [List.getElem?_eq_getElem hlt] at e2
      have hw : isWordChar (cap[pre.length + 10 - pfx.length]) = true :=
        digit_isWordChar (List.all_eq_true.mp hcd _ (List.getElem_mem hlt))
      rw [e2] at e1
      match post, e1 with
      | [], e1 => simp at e1
      | c :: l, e1 =>
        obtain rfl : cap[pre.length + 10 - pfx.length] = c := by
          simpa using e1
        rw [boundaryOk_cons, hw] at hbp
        simp at hbp

/-- Wherever `tgtRun` occurs followed by a token boundary, the global scan
captures it (possibly as the identical digits of a different occurrence). -/
theorem mem_scan_of_decomp :
    ∀ n : Nat, ∀ s pre post : List Char, s.length ≤ n →
      s = pre ++ tgtRun ++ post → boundaryOk post = true → tgtRun ∈ scan s := by
  intro n
  induction n with
  | zero =>
    intro s pre post h1 hdec _
    have : s.length = pre.length + 10 + post.length := by
      simp [hdec, tgtRun_length]; omega
    omega
  | succ n ih =>
    intro s pre post h1 hdec hpost
    match htm : tryMatch s with
    | some (cap, after) =>
      have hcons : ∃ c rest, s = c :: rest := by
        match s, htm with
        | c :: rest, _ => exact ⟨c, rest, rfl⟩
        | [], htm => rw [tryMatch_nil] at htm; exact absurd htm (by simp)
      obtain ⟨c, rest, rfl⟩ := hcons
      rw [scan_cons_some htm]
      by_cases hc : cap = tgtRun
      · exact hc ▸ List.mem_cons_self _ _
      · obtain ⟨pf, hpl, hdc, h10, hdig, _, hba⟩ := tryMatch_eq_some htm
        have hafter := match_overlap hdc hdec hpl h10 hdig hba hpost hc
        have hlen := tryMatch_some_length htm
        exact List.mem_cons_of_mem _
          (ih after _ post (by simp at h1 hlen ⊢; omega) hafter hpost)
    | none =>
      match s, hdec with
      | [], hdec =>
        have hlen := congrArg List.length hdec
        rw [List.length_append, List.length_append, tgtRun_length] at hlen
        simp at hlen
        omega
      | c :: rest, hdec =>
        rw [scan_cons_none htm]
        match pre, hdec with
        | [], hdec =>
          exfalso
          simp only [List.nil_append] at hdec
          rw [hdec, tryMatch_target hpost] at htm
          exact absurd htm (by simp)
        | p :: pre2, hdec =>
          have hrest : rest = pre2 ++ tgtRun ++ post := by
            simpa using congrArg List.tail hdec
          exact ih rest pre2 post (by simp at h1; omega) hrest hpost

/-! ## Helper lemmas: scanning a join of normalized numbers (C6) -/

/-- At the start of a normalized number the pattern matches via the literal
prefix `91`, capturing exactly the number's ten-digit tail. -/
theorem tryMatch_num {c : Char} {cs T : List Char} (hlen : cs.length = 9)
    (hmob : isMobileStart c = true) (hdig : cs.all Char.isDigit = true)
    (hT : boundaryOk T = true) :
    tryMatch ('9' :: '1' :: c :: (cs ++ T)) = some (c :: cs, T) := by
  have hp1 : (('+' : Char) == '9') = false := by decide
  have h1 : tryPfx ['+', '9', '1'] ('9' :: '1' :: c :: (cs ++ T)) = none := by
    simp [tryPfx, startsWith, hp1]
  have h2 : startsWith ['9', '1'] ('9' :: '1' :: c :: (cs ++ T)) = true := by
    simp [startsWith]
  have h3 : afterPfx (c :: (cs ++ T)) = some (c :: cs, T) := by
    simp only [afterPfx, mobile_ne_space hmob, mobile_ne_hyphen hmob,
      Bool.or_self, Bool.false_eq_true, if_false]
    exact runMatch_exact hlen hmob hdig hT
  have h0 : startsWith ['+', '9', '1'] ('9' :: '1' :: c :: (cs ++ T)) =
      false := by simp [startsWith, hp1]
  simp [tryMatch, tryPfx, h0, h2, h3]

/-- Right after a separator that is followed by a whole normalized number
the pattern fails: the ten digits starting at `9` are followed by a digit. -/
theorem tryMatch_sep {c : Char} {cs T : List Char} (hlen : cs.length = 9)
    (hdig : cs.all Char.isDigit = true) :
    tryMatch (' ' :: '9' :: '1' :: c :: (cs ++ T)) = none := by
  have hp1 : (('+' : Char) == ' ') = false := by decide
  have hp2 : (('9' : Char) == ' ') = false := by decide
  have hp3 : (('0' : Char) == ' ') = false := by decide
  have h1 : tryPfx ['+', '9', '1'] (' ' :: '9' :: '1' :: c :: (cs ++ T)) =
      none := by simp [tryPfx, startsWith, hp1]
  have h2 : tryPfx ['9', '1'] (' ' :: '9' :: '1' :: c :: (cs ++ T)) =
      none := by simp [tryPfx, startsWith, hp2]
  have h3 : tryPfx ['0'] (' ' :: '9' :: '1' :: c :: (cs ++ T)) = none := by
    simp [tryPfx, startsWith, hp3]
  have hrun : runMatch ('9' :: '1' :: c :: (cs ++ T)) = none := by
    have hdrop : List.drop 9 ('1' :: c :: (cs ++ T)) = cs.drop 7 ++ T := by
      simp only [List.drop_succ_cons]
      rw [List.drop_append_eq_append_drop]
      rw [Nat.sub_eq_zero_of_le (by omega), List.drop_zero]
    have hb : boundaryOk (cs.drop 7 ++ T) = false := by
      have h7 : (cs.drop 7).length = 2 := by rw [List.length_drop, hlen]
      match hcs7 : cs.drop 7 with
      | [] => rw [hcs7] at h7; simp at h7
      | d :: r2 =>
        have hd : d ∈ cs := List.mem_of_mem_drop (hcs7 ▸ List.mem_cons_self d r2)
        have hdd : d.isDigit = true := List.all_eq_true.mp hdig d hd
        simp [boundaryOk_cons, digit_isWordChar hdd]
    simp only [runMatch, hdrop, hb, Bool.and_false]
    simp
  have hrun2 : runMatch (' ' :: '9' :: '1' :: c :: (cs ++ T)) = none := by
    have : isMobileStart ' ' = false := by decide
    simp [runMatch, this]
  have h4 : afterPfx (' ' :: '9' :: '1' :: c :: (cs ++ T)) = none := by
    simp only [afterPfx, hrun, hrun2]
    simp
  simp only [tryMatch, h1, h2, h3, h4]

/-- A join headed by a normalized number starts `'9' :: '1' :: c :: cs ++ T`. -/
theorem join_cons_shape {m : List Char} {rest : List (List Char)}
    (hm : IsNum m) :
    ∃ c cs T, joinNumbers (m :: rest) = '9' :: '1' :: c :: (cs ++ T) ∧
      cs.length = 9 ∧ isMobileStart c = true ∧
      (c :: cs).all Char.isDigit = true := by
  obtain ⟨c, cs, rfl, hlen, hmob, hdig⟩ := hm
  match rest with
  | [] =>
    exact ⟨c, cs, [], by simp [joinNumbers], hlen, hmob, hdig⟩
  | r :: rs =>
    exact ⟨c, cs, ' ' :: joinNumbers (r :: rs), by simp [joinNumbers], hlen,
      hmob, hdig⟩

/-- Scanning the space-join of normalized numbers recovers their runs. -/
theorem scan_join :
    ∀ ns : List (List Char), (∀ n ∈ ns, IsNum n) →
      scan (joinNumbers ns) = ns.map (fun n => n.drop 2) := by
  intro ns
  induction ns with
  | nil => intro _; simp [joinNumbers, scan_nil]
  | cons n ns ih =>
    intro hall
    obtain ⟨c, cs, rfl, hlen, hmob, hdig⟩ := hall n (List.mem_cons_self n ns)
    have hdig9 : cs.all Char.isDigit = true := by
      simp only [List.all_cons, Bool.and_eq_true] at hdig
      exact hdig.2
    match ns with
    | [] =>
      have htm := tryMatch_num (T := []) hlen hmob hdig9 (by decide)
      rw [List.append_nil] at htm
      simp only [joinNumbers]
      rw [scan_cons_some htm, scan_nil]
      simp
    | m :: rest =>
      have hT : boundaryOk (' ' :: joinNumbers (m :: rest)) = true := by
        rw [boundaryOk_cons]
        decide
      have htm := tryMatch_num (T := ' ' :: joinNumbers (m :: rest))
        hlen hmob hdig9 hT
      have hjoin : joinNumbers (('9' :: '1' :: c :: cs) :: m :: rest) =
          '9' :: '1' :: c :: (cs ++ ' ' :: joinNumbers (m :: rest)) := by
        simp [joinNumbers]
      rw [hjoin, scan_cons_some htm]
      obtain ⟨c2, cs2, T2, hshape, hlen2, hmob2, hdig2⟩ :=
        join_cons_shape (hall m (List.mem_cons_of_mem _ (List.mem_cons_self m rest)))
      have hdig2' : cs2.all Char.isDigit = true := by
        simp only [List.all_cons, Bool.and_eq_true] at hdig2
        exact hdig2.2
      have hsep : tryMatch (' ' :: joinNumbers (m :: rest)) = none := by
        rw [hshape]
        exact tryMatch_sep hlen2 hdig2'
      rw [scan_cons_none hsep, ih (fun x hx => hall x (List.mem_cons_of_mem _ hx))]
      simp

/-- Every member of an extraction result is a normalized number. -/
theorem extract_mem_isnum {text n : List Char}
    (h : n ∈ extractIndianNumbers text) : IsNum n := by
  rw [extractIndianNumbers, mem_dedupFirst, List.mem_map] at h
  obtain ⟨cap, hcap, rfl⟩ := h
  obtain ⟨h10, hdig, c, cs, rfl, hmob⟩ :=
    mem_scan_shape text.length text cap le_rfl hcap
  refine ⟨c, cs, rfl, ?_, hmob, hdig⟩
  simp only [List.length_cons] at h10
  omega

/-! ## Helper lemmas: the matcher agrees with the spec-side transcription -/

theorem succ_beq_ten (a : ℕ) : (a + 1 == 10) = (a == 9) := by
  rcases eq_or_ne a 9 with rfl | h
  · rfl
  · rw [beq_eq_false_iff_ne.mpr h, beq_eq_false_iff_ne.mpr (by omega)]

theorem runMatch_eq_specRun :
    ∀ t : List Char, runMatch t = specRun boundaryOk t := by
  intro t
  match t with
  | [] => rfl
  | c :: rest =>
    have htake : (c :: rest).take 10 = c :: rest.take 9 := rfl
    have hdrop : (c :: rest).drop 10 = rest.drop 9 := rfl
    simp only [runMatch, specRun, htake, hdrop, List.head?_cons,
      List.length_cons, List.all_cons, succ_beq_ten]
    cases hmb : isMobileStart c
    · simp
    · have hdg : c.isDigit = true := mobile_isDigit hmb
      simp [hdg]

theorem startsWith_append_left {p q s : List Char}
    (h : startsWith (p ++ q) s = true) : startsWith p s = true := by
  induction p generalizing s with
  | nil => rfl
  | cons a ps ih =>
    match s with
    | [] => simp [startsWith] at h
    | c :: cs =>
      simp only [List.cons_append, startsWith, Bool.and_eq_true] at h ⊢
      exact ⟨h.1, ih h.2⟩

theorem startsWith_append_cancel :
    ∀ p t q : List Char, startsWith (p ++ q) (p ++ t) = startsWith q t := by
  intro p
  induction p with
  | nil => intro t q; rfl
  | cons a ps ih =>
    intro t q
    simp only [List.cons_append, startsWith, beq_self_eq_true, Bool.true_and]
    exact ih t q

theorem opt_assoc {α : Type} (x y z : Option α) :
    (match (match x with | some r => some r | none => y) with
     | some r => some r | none => z) =
      (match x with
       | some r => some r
       | none => match y with | some r => some r | none => z) := by
  cases x <;> rfl

theorem tryPfx_eq_combos (p s : List Char) :
    tryPfx p s =
      (match specTryCombo boundaryOk p [' '] s with
       | some r => some r
       | none =>
         match specTryCombo boundaryOk p ['-'] s with
         | some r => some r
         | none => specTryCombo boundaryOk p [] s) := by
  cases hsw : startsWith p s
  · have hw1 : startsWith (p ++ [' ']) s = false := by
      cases h : startsWith (p ++ [' ']) s
      · rfl
      · rw [startsWith_append_left h] at hsw; exact hsw
    have hw2 : startsWith (p ++ ['-']) s = false := by
      cases h : startsWith (p ++ ['-']) s
      · rfl
      · rw [startsWith_append_left h] at hsw; exact hsw
    have hw3 : startsWith (p ++ []) s = false := by
      rw [List.append_nil]; exact hsw
    simp [tryPfx, specTryCombo, hsw, hw1, hw2, hw3]
  · have hdec := startsWith_decomp p s hsw
    have hw3 : startsWith (p ++ []) s = true := by
      rw [List.append_nil]; exact hsw
    have hdl : s.drop (p ++ []).length = s.drop p.length := by
      rw [List.append_nil]
    match ht : s.drop p.length with
    | [] =>
      have hw1 : startsWith (p ++ [' ']) s = false := by
        conv_lhs => rw [hdec, ht]
        rw [startsWith_append_cancel p [] [' ']]
        rfl
      have hw2 : startsWith (p ++ ['-']) s = false := by
        conv_lhs => rw [hdec, ht]
        rw [startsWith_append_cancel p [] ['-']]
        rfl
      simp [tryPfx, specTryCombo, hsw, hw1, hw2, hw3, hdl, ht, afterPfx,
        specRun]
    | c :: rest =>
      have hs1 : startsWith (p ++ [' ']) s = (' ' == c && true) := by
        conv_lhs => rw [hdec, ht]
        rw [startsWith_append_cancel p (c :: rest) [' ']]
        rfl
      have hs2 : startsWith (p ++ ['-']) s = ('-' == c && true) := by
        conv_lhs => rw [hdec, ht]
        rw [startsWith_append_cancel p (c :: rest) ['-']]
        rfl
      have hdrop1 : s.drop (p ++ [' ']).length = rest := by
        rw [List.length_append, List.length_cons, List.length_nil,
          ← List.drop_drop, ht, List.drop_one, List.tail_cons]
      have hdrop2 : s.drop (p ++ ['-']).length = rest := by
        rw [List.length_append, List.length_cons, List.length_nil,
          ← List.drop_drop, ht, List.drop_one, List.tail_cons]
      by_cases hcsp : c = ' '
      · subst hcsp
        have h1t : ((' ' == ' ') && true) = true := by decide
        have h2f : (('-' == ' ') && true) = false := by decide
        simp only [tryPfx, hsw, if_true, ht, specTryCombo, hs1, h1t, hs2, h2f,
          Bool.false_eq_true, if_false, hw3, hdrop1, hdl, ht, afterPfx]
        rw [if_pos (show ((' ' == ' ') || (' ' == '-')) = true by decide)]
        rw [runMatch_eq_specRun rest, runMatch_eq_specRun (' ' :: rest)]
      · by_cases hchy : c = '-'
        · subst hchy
          have h1f : ((' ' == '-') && true) = false := by decide
          have h2t : (('-' == '-') && true) = true := by decide
          simp only [tryPfx, hsw, if_true, ht, specTryCombo, hs1, h1f, hs2,
            h2t, Bool.false_eq_true, if_false, hw3, hdrop2, hdl, ht, afterPfx]
          rw [if_pos (show (('-' == ' ') || ('-' == '-')) = true by decide)]
          rw [runMatch_eq_specRun rest, runMatch_eq_specRun ('-' :: rest)]
        · have h1f : ((' ' == c) && true) = false := by
            rw [beq_eq_false_iff_ne.mpr (fun h => hcsp h.symm)]
            rfl
          have h2f : (('-' == c) && true) = false := by
            rw [beq_eq_false_iff_ne.mpr (fun h => hchy h.symm)]
            rfl
          have hcondf : ((c == ' ') || (c == '-')) = false := by
            rw [beq_eq_false_iff_ne.mpr hcsp, beq_eq_false_iff_ne.mpr hchy]
            rfl
          simp only [tryPfx, hsw, if_true, ht, specTryCombo, hs1, h1f, hs2,
            h2f, Bool.false_eq_true, if_false, hw3, hdl, ht, afterPfx, hcondf]
          exact runMatch_eq_specRun (c :: rest)

theorem tryPfx_nil_eq (s : List Char) : tryPfx [] s = afterPfx s := by
  simp [tryPfx, startsWith]

theorem tryMatch_eq_specMatchAt (s : List Char) :
    tryMatch s = specMatchAt boundaryOk s := by
  rw [specMatchAt]
  simp only [specCombos, List.findSome?_cons, List.findSome?_nil]
  simp only [tryMatch]
  rw [tryPfx_eq_combos ['+', '9', '1'] s, tryPfx_eq_combos ['9', '1'] s,
    tryPfx_eq_combos ['0'] s, ← tryPfx_nil_eq s, tryPfx_eq_combos [] s]
  cases c0 : specTryCombo boundaryOk ['+', '9', '1'] [' '] s with
  | some r => rfl
  | none =>
    cases c1 : specTryCombo boundaryOk ['+', '9', '1'] ['-'] s with
    | some r => rfl
    | none =>
      cases c2 : specTryCombo boundaryOk ['+', '9', '1'] [] s with
      | some r => rfl
      | none =>
        cases c3 : specTryCombo boundaryOk ['9', '1'] [' '] s with
        | some r => rfl
        | none =>
          cases c4 : specTryCombo boundaryOk ['9', '1'] ['-'] s with
          | some r => rfl
          | none =>
            cases c5 : specTryCombo boundaryOk ['9', '1'] [] s with
            | some r => rfl
            | none =>
              cases c6 : specTryCombo boundaryOk ['0'] [' '] s with
              | some r => rfl
              | none =>
                cases c7 : specTryCombo boundaryOk ['0'] ['-'] s with
                | some r => rfl
                | none =>
                  cases c8 : specTryCombo boundaryOk ['0'] [] s with
                  | some r => rfl
                  | none =>
                    cases c9 : specTryCombo boundaryOk [] [' '] s with
                    | some r => rfl
                    | none =>
                      cases c10 : specTryCombo boundaryOk [] ['-'] s with
                      | some r => rfl
                      | none =>
                        cases c11 : specTryCombo boundaryOk [] [] s with
                        | some r => rfl
                        | none =>
                          rfl

theorem specScanFuel_eq :
    ∀ fuel : Nat, ∀ s : List Char,
      scanFuel fuel s = specScanFuel boundaryOk fuel s := by
  intro fuel
  induction fuel with
  | zero => intro s; rfl
  | succ fuel ih =>
    intro s
    match s with
    | [] => rfl
    | c :: rest =>
      simp only [scanFuel, specScanFuel, ← tryMatch_eq_specMatchAt]
      cases htm : tryMatch (c :: rest) with
      | some r =>
        obtain ⟨cap, after⟩ := r
        show cap :: scanFuel fuel after = cap :: specScanFuel boundaryOk fuel after
        rw [ih after]
      | none => exact ih rest

theorem scan_eq_specScan (s : List Char) : scan s = specScan boundaryOk s :=
  specScanFuel_eq s.length s

theorem extract_eq_specExtract (text : List Char) :
    extractIndianNumbers text = specExtract boundaryOk text := by
  rw [extractIndianNumbers, specExtract, scan_eq_specScan]

/-! ## Helper lemmas: the image enhancer -/

theorem avg_gt_iff (p : Pix) : avgQ p > 128 ↔ 384 < p.r + p.g + p.b := by
  rw [avgQ, gt_iff_lt, lt_div_iff₀ (by norm_num : (0:ℚ) < 3)]
  norm_cast

theorem avg_lt_iff (p : Pix) : avgQ p < 50 ↔ p.r + p.g + p.b < 150 := by
  rw [avgQ, div_lt_iff₀ (by norm_num : (0:ℚ) < 3)]
  norm_cast

theorem toUint8Clamp_div3 (s : ℕ) (hle : s ≤ 384) :
    toUint8Clamp ((s : ℚ) / 3) = (s + 1) / 3 := by
  obtain ⟨q, t, ht, hqle, rfl⟩ : ∃ q t, t < 3 ∧ q ≤ 128 ∧ s = 3 * q + t :=
    ⟨s / 3, s % 3, Nat.mod_lt _ (by norm_num), by omega,
      by rw [Nat.div_add_mod]⟩
  have hsplit : ((3 * q + t : ℕ) : ℚ) / 3 = (q : ℚ) + (t : ℚ) / 3 := by
    push_cast
    ring
  have hfr : ⌊(t : ℚ) / 3⌋ = 0 := by
    rw [Int.floor_eq_zero_iff]
    constructor
    · positivity
    · rw [div_lt_one (by norm_num : (0:ℚ) < 3)]
      exact_mod_cast by omega
  have hfloor : ⌊(q : ℚ) + (t : ℚ) / 3⌋ = (q : ℤ) := by
    rw [add_comm, Int.floor_add_nat, hfr, zero_add]
  rw [hsplit, toUint8Clamp, rdHalfEven, hfloor]
  interval_cases t
  · have hmin : Nat.min q 255 = q := Nat.min_eq_left (by omega)
    rw [if_pos (by push_cast; norm_num), Int.toNat_natCast, hmin]
    omega
  · have hmin : Nat.min q 255 = q := Nat.min_eq_left (by omega)
    rw [if_pos (by push_cast; norm_num), Int.toNat_natCast, hmin]
    omega
  · have hmin : Nat.min (q + 1) 255 = q + 1 := Nat.min_eq_left (by omega)
    rw [if_neg (by push_cast; norm_num), if_pos (by push_cast; norm_num),
      show ((q : ℤ) + 1) = ((q + 1 : ℕ) : ℤ) by push_cast; ring,
      Int.toNat_natCast, hmin]
    omega

theorem grayValue_eq (p : Pix) :
    grayValue p = natThreeWay (p.r + p.g + p.b) := by
  rw [grayValue, grayValueQ, natThreeWay]
  by_cases h1 : 384 < p.r + p.g + p.b
  · rw [if_pos ((avg_gt_iff p).mpr h1), if_pos h1]
    rw [toUint8Clamp, rdHalfEven]
    norm_num
    omega
  · rw [if_neg (fun hc => h1 ((avg_gt_iff p).mp hc)), if_neg h1]
    by_cases h2 : p.r + p.g + p.b < 150
    · rw [if_pos ((avg_lt_iff p).mpr h2), if_pos h2]
      rw [toUint8Clamp, rdHalfEven]
      norm_num
    · rw [if_neg (fun hc => h2 ((avg_lt_iff p).mp hc)), if_neg h2]
      rw [avgQ]
      have := toUint8Clamp_div3 (p.r + p.g + p.b) (by omega)
      rw [← this]
      congr 1
      push_cast
      ring

theorem grayscaleStage_pix (img : Img) (x y : ℕ) :
    (grayscaleStage img).pix x y =
      { r := natThreeWay ((img.pix x y).r + (img.pix x y).g + (img.pix x y).b),
        g := natThreeWay ((img.pix x y).r + (img.pix x y).g + (img.pix x y).b),
        b := natThreeWay ((img.pix x y).r + (img.pix x y).g + (img.pix x y).b),
        a := (img.pix x y).a } := by
  simp [grayscaleStage, grayValue_eq]

theorem clampByte_eq (z : ℤ) : (clampByte z : ℤ) = max 0 (min 255 z) := by
  rw [clampByte]
  push_cast
  omega

theorem grayscaleStage_const (w h : ℕ) (p : Pix) :
    grayscaleStage (constImg w h p) =
      constImg w h
        { r := natThreeWay (p.r + p.g + p.b),
          g := natThreeWay (p.r + p.g + p.b),
          b := natThreeWay (p.r + p.g + p.b), a := p.a } := by
  rw [grayscaleStage, constImg, constImg]
  congr 1
  funext x y
  simp [grayValue_eq]

theorem convChannel_const {w h : ℕ} {q : Pix} (ch : Pix → ℕ) {x y : ℕ}
    (hx1 : 1 ≤ x) (hx2 : x + 2 ≤ w) (hy1 : 1 ≤ y) (hy2 : y + 2 ≤ h) :
    convChannel (constImg w h q) ch x y = (ch q : ℤ) := by
  rw [convChannel]
  simp only [tap, constImg]
  iterate 9 rw [if_pos (by omega)]
  ring

/-! ## Helper lemmas: the orchestrator state updates -/

theorem length_updAt :
    ∀ (s : List Job) (i : ℕ) (f : Job → Job),
      (updAt s i f).length = s.length := by
  intro s
  induction s with
  | nil => intro i f; rfl
  | cons j rest ih =>
    intro i f
    match i with
    | 0 => rfl
    | n + 1 => simp only [updAt, List.length_cons, ih]

theorem getD_updAt_ne :
    ∀ (s : List Job) (i k : ℕ) (f : Job → Job), k ≠ i →
      (updAt s i f).getD k dummyJob = s.getD k dummyJob := by
  intro s
  induction s with
  | nil => intro i k f _; rfl
  | cons j rest ih =>
    intro i k f hne
    match i, k with
    | 0, 0 => exact absurd rfl hne
    | 0, k + 1 => rfl
    | i + 1, 0 => rfl
    | i + 1, k + 1 =>
      simp only [updAt, List.getD_cons_succ]
      exact ih i k f (fun h => hne (congrArg Nat.succ h))

theorem getD_updAt_self :
    ∀ (s : List Job) (i : ℕ) (f : Job → Job), i < s.length →
      (updAt s i f).getD i dummyJob = f (s.getD i dummyJob) := by
  intro s
  induction s with
  | nil => intro i f h; simp at h
  | cons j rest ih =>
    intro i f h
    match i with
    | 0 => rfl
    | i + 1 =>
      simp only [updAt, List.getD_cons_succ]
      exact ih i f (by simp at h; omega)

theorem updAt_updAt :
    ∀ (s : List Job) (i : ℕ) (f g : Job → Job),
      updAt (updAt s i f) i g = updAt s i (fun j => g (f j)) := by
  intro s
  induction s with
  | nil => intro i f g; rfl
  | cons j rest ih =>
    intro i f g
    match i with
    | 0 => rfl
    | i + 1 => simp only [updAt, List.cons.injEq, true_and]; exact ih i f g

theorem statusAt_updAt_ne {s : List Job} {i k : ℕ} {f : Job → Job}
    (h : k ≠ i) : statusAt (updAt s i f) k = statusAt s k := by
  rw [statusAt, statusAt, getD_updAt_ne s i k f h]

theorem statusAt_updAt_self {s : List Job} {i : ℕ} {f : Job → Job}
    (h : i < s.length) :
    statusAt (updAt s i f) i = (f (s.getD i dummyJob)).status := by
  rw [statusAt, getD_updAt_self s i f h]

theorem progressSteps_trace :
    ∀ (ps : List ℚ) (i : ℕ) (s : List Job),
      ∀ st ∈ (progressSteps i ps s).1, ∃ r : ℤ,
        st = updAt s i (setProgress r) := by
  intro ps
  induction ps with
  | nil => intro i s st h; simp [progressSteps] at h
  | cons p ps ih =>
    intro i s st h
    simp only [progressSteps, List.mem_cons] at h
    rcases h with rfl | h
    · exact ⟨jsRound (p * 100), rfl⟩
    · obtain ⟨r, hr⟩ := ih i (updAt s i (setProgress (jsRound (p * 100)))) st h
      refine ⟨r, ?_⟩
      rw [hr, updAt_updAt]
      rfl

theorem progressSteps_final_shape :
    ∀ (ps : List ℚ) (i : ℕ) (s : List Job),
      (progressSteps i ps s).2 = s ∨
        ∃ r : ℤ, (progressSteps i ps s).2 = updAt s i (setProgress r) := by
  intro ps
  induction ps with
  | nil => intro i s; exact Or.inl rfl
  | cons p ps ih =>
    intro i s
    rcases ih i (updAt s i (setProgress (jsRound (p * 100)))) with h | ⟨r, hr⟩
    · exact Or.inr ⟨jsRound (p * 100), h⟩
    · refine Or.inr ⟨r, ?_⟩
      show (progressSteps i ps (updAt s i (setProgress (jsRound (p * 100))))).2 = _
      rw [hr, updAt_updAt]
      rfl

theorem progressSteps_final_length (ps : List ℚ) (i : ℕ) (s : List Job) :
    (progressSteps i ps s).2.length = s.length := by
  rcases progressSteps_final_shape ps i s with h | ⟨r, h⟩
  · rw [h]
  · rw [h, length_updAt]

theorem progressSteps_final_getD_ne (ps : List ℚ) (i k : ℕ) (s : List Job)
    (h : k ≠ i) :
    (progressSteps i ps s).2.getD k dummyJob = s.getD k dummyJob := by
  rcases progressSteps_final_shape ps i s with hs | ⟨r, hs⟩
  · rw [hs]
  · rw [hs, getD_updAt_ne s i k _ h]

theorem progressSteps_final_getD :
    ∀ (ps : List ℚ) (i : ℕ) (s : List Job), i < s.length →
      (progressSteps i ps s).2.getD i dummyJob =
        { s.getD i dummyJob with
            progress := ps.foldl (fun _ p => jsRound (p * 100))
              (s.getD i dummyJob).progress } := by
  intro ps
  induction ps with
  | nil => intro i s _; rfl
  | cons p ps ih =>
    intro i s hi
    have h1 : i < (updAt s i (setProgress (jsRound (p * 100)))).length := by
      rw [length_updAt]; exact hi
    show (progressSteps i ps (updAt s i (setProgress (jsRound (p * 100))))).2.getD
        i dummyJob = _
    rw [ih i _ h1, getD_updAt_self s i _ hi]
    rfl

theorem runJob_trace_shape (i : ℕ) (b : FileBehavior) (s : List Job) :
    ∀ st ∈ (runJob i b s).1, ∃ g : Job → Job,
      st = updAt s i g ∧ ∀ j : Job, (g j).status ≠ JStatus.pending := by
  intro st hst
  match hb : b.preprocess with
  | .err msg =>
    simp only [runJob, hb, List.mem_cons, List.mem_singleton] at hst
    rcases hst with rfl | rfl | h
    · exact ⟨setProcessing, rfl, fun j => by simp [setProcessing]⟩
    · refine ⟨fun j => setError msg (setProcessing j), ?_, fun j => by
        simp [setError]⟩
      rw [updAt_updAt]
    · simp at h
  | .ok _ =>
    match hoc : b.ocr with
    | .err msg =>
      simp only [runJob, hb, hoc, List.mem_cons, List.mem_append,
        List.mem_singleton] at hst
      rcases hst with (rfl | hmem) | rfl | habs
      · exact ⟨setProcessing, rfl, fun j => by simp [setProcessing]⟩
      · obtain ⟨r, hr⟩ := progressSteps_trace b.ocrEvents i _ st hmem
        refine ⟨fun j => setProgress r (setProcessing j), ?_, fun j => by
          simp [setProgress, setProcessing]⟩
        rw [hr, updAt_updAt]
      · rcases progressSteps_final_shape b.ocrEvents i
            (updAt s i setProcessing) with h | ⟨r, h⟩
        · refine ⟨fun j => setError msg (setProcessing j), ?_, fun j => by
            simp [setError]⟩
          rw [h, updAt_updAt]
        · refine ⟨fun j => setError msg (setProgress r (setProcessing j)), ?_,
            fun j => by simp [setError]⟩
          rw [h, updAt_updAt, updAt_updAt]
      · simp at habs
    | .ok text =>
      simp only [runJob, hb, hoc, List.mem_cons, List.mem_append,
        List.mem_singleton] at hst
      rcases hst with (rfl | hmem) | rfl | habs
      · exact ⟨setProcessing, rfl, fun j => by simp [setProcessing]⟩
      · obtain ⟨r, hr⟩ := progressSteps_trace b.ocrEvents i _ st hmem
        refine ⟨fun j => setProgress r (setProcessing j), ?_, fun j => by
          simp [setProgress, setProcessing]⟩
        rw [hr, updAt_updAt]
      · rcases progressSteps_final_shape b.ocrEvents i
            (updAt s i setProcessing) with h | ⟨r, h⟩
        · refine ⟨fun j => setCompleted text (setProcessing j), ?_, fun j => by
            simp [setCompleted]⟩
          rw [h, updAt_updAt]
        · refine ⟨fun j => setCompleted text (setProgress r (setProcessing j)),
            ?_, fun j => by simp [setCompleted]⟩
          rw [h, updAt_updAt, updAt_updAt]
      · simp at habs

theorem runJob_final_shape (i : ℕ) (b : FileBehavior) (s : List Job) :
    ∃ g : Job → Job, (runJob i b s).2 = updAt s i g ∧
      ∀ j : Job, (g j).status = JStatus.completed ∨
        (g j).status = JStatus.error := by
  match hb : b.preprocess with
  | .err msg =>
    refine ⟨fun j => setError msg (setProcessing j), ?_, fun j => Or.inr (by
      simp [setError])⟩
    simp only [runJob, hb]
    rw [updAt_updAt]
  | .ok _ =>
    match hoc : b.ocr with
    | .err msg =>
      rcases progressSteps_final_shape b.ocrEvents i
          (updAt s i setProcessing) with h | ⟨r, h⟩
      · refine ⟨fun j => setError msg (setProcessing j), ?_, fun j => Or.inr
          (by simp [setError])⟩
        simp only [runJob, hb, hoc]
        rw [h, updAt_updAt]
      · refine ⟨fun j => setError msg (setProgress r (setProcessing j)), ?_,
          fun j => Or.inr (by simp [setError])⟩
        simp only [runJob, hb, hoc]
        rw [h, updAt_updAt, updAt_updAt]
    | .ok text =>
      rcases progressSteps_final_shape b.ocrEvents i
          (updAt s i setProcessing) with h | ⟨r, h⟩
      · refine ⟨fun j => setCompleted text (setProcessing j), ?_, fun j =>
          Or.inl (by simp [setCompleted])⟩
        simp only [runJob, hb, hoc]
        rw [h, updAt_updAt]
      · refine ⟨fun j => setCompleted text (setProgress r (setProcessing j)),
          ?_, fun j => Or.inl (by simp [setCompleted])⟩
        simp only [runJob, hb, hoc]
        rw [h, updAt_updAt, updAt_updAt]

theorem runJob_final_length (i : ℕ) (b : FileBehavior) (s : List Job) :
    (runJob i b s).2.length = s.length := by
  obtain ⟨g, hg, _⟩ := runJob_final_shape i b s
  rw [hg, length_updAt]

theorem runJob_final_getD_ne (i k : ℕ) (b : FileBehavior) (s : List Job)
    (h : k ≠ i) :
    (runJob i b s).2.getD k dummyJob = s.getD k dummyJob := by
  obtain ⟨g, hg, _⟩ := runJob_final_shape i b s
  rw [hg, getD_updAt_ne s i k g h]

theorem runJob_final_getD (i : ℕ) (b : FileBehavior) (s : List Job)
    (hi : i < s.length) :
    (runJob i b s).2.getD i dummyJob = expectedFrom b (s.getD i dummyJob) := by
  match hb : b.preprocess with
  | .err msg =>
    simp only [runJob, hb, expectedFrom]
    rw [updAt_updAt, getD_updAt_self s i _ hi]
  | .ok _ =>
    have h1 : i < (updAt s i setProcessing).length := by
      rw [length_updAt]; exact hi
    have hmid := progressSteps_final_getD b.ocrEvents i
      (updAt s i setProcessing) h1
    rw [getD_updAt_self s i _ hi] at hmid
    have h2 : i < (progressSteps i b.ocrEvents (updAt s i setProcessing)).2.length := by
      rw [progressSteps_final_length, length_updAt]; exact hi
    match hoc : b.ocr with
    | .err msg =>
      simp only [runJob, hb, hoc, expectedFrom]
      rw [getD_updAt_self _ i _ h2, hmid]
      rfl
    | .ok text =>
      simp only [runJob, hb, hoc, expectedFrom]
      rw [getD_updAt_self _ i _ h2, hmid]
      rfl

theorem runJobs_final_length :
    ∀ (fs : List FileSpec) (i0 : ℕ) (s : List Job),
      (runJobs i0 fs s).2.length = s.length := by
  intro fs
  induction fs with
  | nil => intro i0 s; rfl
  | cons f fs ih =>
    intro i0 s
    show (runJobs (i0 + 1) fs (runJob i0 f.behavior s).2).2.length = s.length
    rw [ih, runJob_final_length]

theorem runJobs_final_untouched :
    ∀ (fs : List FileSpec) (i0 k : ℕ) (s : List Job), k < i0 →
      (runJobs i0 fs s).2.getD k dummyJob = s.getD k dummyJob := by
  intro fs
  induction fs with
  | nil => intro i0 k s _; rfl
  | cons f fs ih =>
    intro i0 k s hk
    show (runJobs (i0 + 1) fs (runJob i0 f.behavior s).2).2.getD k dummyJob = _
    rw [ih (i0 + 1) k _ (by omega), runJob_final_getD_ne i0 k _ s (by omega)]

theorem runJobs_final_getD :
    ∀ (fs : List FileSpec) (i0 k : ℕ) (s : List Job), k < fs.length →
      i0 + fs.length ≤ s.length →
      (runJobs i0 fs s).2.getD (i0 + k) dummyJob =
        expectedFrom (fs.getD k dummyFile).behavior
          (s.getD (i0 + k) dummyJob) := by
  intro fs
  induction fs with
  | nil => intro i0 k s hk _; simp at hk
  | cons f fs ih =>
    intro i0 k s hk hlen
    show (runJobs (i0 + 1) fs (runJob i0 f.behavior s).2).2.getD (i0 + k)
        dummyJob = _
    match k with
    | 0 =>
      rw [runJobs_final_untouched fs (i0 + 1) (i0 + 0) _ (by omega)]
      simp only [Nat.add_zero, List.getD_cons_zero]
      exact runJob_final_getD i0 f.behavior s (by simp at hlen; omega)
    | k + 1 =>
      have : i0 + (k + 1) = (i0 + 1) + k := by omega
      rw [this, List.getD_cons_succ,
        ih (i0 + 1) k _ (by simp at hk; omega)
          (by rw [runJob_final_length]; simp at hlen; omega),
        runJob_final_getD_ne i0 ((i0 + 1) + k) _ s (by omega)]

theorem props_from_profile (st : List Job) (i0 : ℕ)
    (hlt : ∀ k, k < i0 → k < st.length →
      statusAt st k = JStatus.completed ∨ statusAt st k = JStatus.error)
    (hgt : ∀ k, i0 < k → k < st.length → statusAt st k = JStatus.pending) :
    noTwoProcessing st ∧ startOrdered st := by
  constructor
  · intro a b ha hb hpa hpb
    have hai : a = i0 := by
      rcases Nat.lt_trichotomy a i0 with h | h | h
      · rcases hlt a h ha with hc | hc <;> rw [hpa] at hc <;>
          exact absurd hc (by decide)
      · exact h
      · rw [hgt a h ha] at hpa; exact absurd hpa (by decide)
    have hbi : b = i0 := by
      rcases Nat.lt_trichotomy b i0 with h | h | h
      · rcases hlt b h hb with hc | hc <;> rw [hpb] at hc <;>
          exact absurd hc (by decide)
      · exact h
      · rw [hgt b h hb] at hpb; exact absurd hpb (by decide)
    rw [hai, hbi]
  · intro a b hab hb hbp
    have hble : b ≤ i0 := by
      by_contra hc
      push_neg at hc
      exact hbp (hgt b hc hb)
    exact hlt a (by omega) (by omega)

theorem runJobs_trace_props :
    ∀ (fs : List FileSpec) (i0 : ℕ) (s : List Job),
      i0 + fs.length ≤ s.length →
      (∀ k, k < i0 → k < s.length →
        statusAt s k = JStatus.completed ∨ statusAt s k = JStatus.error) →
      (∀ k, i0 ≤ k → k < s.length → statusAt s k = JStatus.pending) →
      ∀ st ∈ (runJobs i0 fs s).1,
        st.length = s.length ∧ noTwoProcessing st ∧ startOrdered st := by
  intro fs
  induction fs with
  | nil => intro i0 s _ _ _ st h; simp [runJobs] at h
  | cons f fs ih =>
    intro i0 s hlen hterm hpend st hst
    have hi0 : i0 < s.length := by simp at hlen; omega
    simp only [runJobs, List.mem_append] at hst
    rcases hst with hst | hst
    · obtain ⟨g, rfl, hg⟩ := runJob_trace_shape i0 f.behavior s st hst
      refine ⟨length_updAt s i0 g, ?_⟩
      refine props_from_profile _ i0 ?_ ?_
      · intro k hk hk2
        rw [statusAt_updAt_ne (by omega)]
        exact hterm k hk (by rw [length_updAt] at hk2; exact hk2)
      · intro k hk hk2
        rw [statusAt_updAt_ne (by omega)]
        exact hpend k (by omega) (by rw [length_updAt] at hk2; exact hk2)
    · obtain ⟨g, hgeq, hg⟩ := runJob_final_shape i0 f.behavior s
      have h1 : (i0 + 1) + fs.length ≤ (runJob i0 f.behavior s).2.length := by
        rw [runJob_final_length]
        simp at hlen
        omega
      have h2 : ∀ k, k < i0 + 1 → k < (runJob i0 f.behavior s).2.length →
          statusAt (runJob i0 f.behavior s).2 k = JStatus.completed ∨
            statusAt (runJob i0 f.behavior s).2 k = JStatus.error := by
        intro k hk hk2
        rw [hgeq]
        rcases Nat.lt_or_ge k i0 with h | h
        · rw [statusAt_updAt_ne (by omega)]
          exact hterm k h (by rw [hgeq, length_updAt] at hk2; exact hk2)
        · have : k = i0 := by omega
          rw [this, statusAt_updAt_self hi0]
          exact hg _
      have h3 : ∀ k, i0 + 1 ≤ k → k < (runJob i0 f.behavior s).2.length →
          statusAt (runJob i0 f.behavior s).2 k = JStatus.pending := by
        intro k hk hk2
        rw [hgeq, statusAt_updAt_ne (by omega)]
        exact hpend k (by omega) (by rw [hgeq, length_updAt] at hk2; exact hk2)
      have := ih (i0 + 1) (runJob i0 f.behavior s).2 h1 h2 h3 st hst
      rw [runJob_final_length] at this
      exact this

theorem initJobs_getD :
    ∀ (fs : List FileSpec) (k : ℕ), k < fs.length →
      (initJobs fs).getD k dummyJob = initJob ((fs.getD k dummyFile).name) := by
  intro fs
  induction fs with
  | nil => intro k h; simp at h
  | cons f fs ih =>
    intro k h
    match k with
    | 0 => rfl
    | k + 1 =>
      simp only [initJobs, List.map_cons, List.getD_cons_succ]
      exact ih k (by simp at h; omega)

theorem initJobs_length (fs : List FileSpec) :
    (initJobs fs).length = fs.length := by
  simp [initJobs]

theorem statusAt_initJobs {fs : List FileSpec} {k : ℕ} (h : k < fs.length) :
    statusAt (initJobs fs) k = JStatus.pending := by
  rw [statusAt, initJobs_getD fs k h]
  rfl

theorem natThreeWay_mid {v : ℕ} (h1 : 50 < v) (h2 : v < 128) :
    natThreeWay (v + v + v) = v := by
  rw [natThreeWay, if_neg (by omega), if_neg (by omega)]
  omega

theorem clampByte_natCast {v : ℕ} (h : v ≤ 255) : clampByte (v : ℤ) = v := by
  rw [clampByte, Int.toNat_natCast]
  exact Nat.min_eq_left h

theorem count_eq_one_of_nodup_mem :
    ∀ (l : List (List Char)) (x : List Char), l.Nodup → x ∈ l →
      l.count x = 1 := by
  intro l
  induction l with
  | nil => intro x _ hm; simp at hm
  | cons y ys ih =>
    intro x hn hm
    rw [List.count_cons]
    by_cases hxy : x = y
    · subst hxy
      rw [List.count_eq_zero.mpr (List.nodup_cons.mp hn).1]
      simp
    · rcases List.mem_cons.mp hm with rfl | hm2
      · exact absurd rfl hxy
      · rw [ih x (List.nodup_cons.mp hn).2 hm2]
        simp only [beq_eq_false_iff_ne.mpr (fun h => hxy h.symm),
          if_false, Bool.false_eq_true]

/-! ## The claims -/

/-- C1 (counterexample): read with the claim's own boundary rule — "the run
is not immediately followed by another digit" — the description does not
match the code: in `"9876543210a"` the run is followed by a letter, which
satisfies the claimed boundary but not the regex's `\b`, so the program
extracts nothing while the described matcher extracts `919876543210`. -/
theorem c1_boundary_counterexample :
    extractIndianNumbers exLetterText = [] ∧
      specExtract digitBoundary exLetterText = [norm12] ∧
      extractIndianNumbers exLetterText ≠
        specExtract digitBoundary exLetterText := by
  decide

/-- C1 (amended): for every input text, `extractIndianNumbers` agrees exactly
with the spec-side matcher — the prefixes `+91`/`91`/`0`, at most one space or
hyphen separator, a 10-digit run opening with 6–9, leftmost non-overlapping
global matching, normalization to `91` + run, and first-seen deduplication —
once the token boundary is read as "not immediately followed by a word
character (letter, digit, or underscore)", which is the regex's `\b`. -/
theorem c1_matcher_equivalence (text : List Char) :
    extractIndianNumbers text = specExtract boundaryOk text :=
  extract_eq_specExtract text

/-- C2: for a batch of at most `MAX_FILES` files, every published snapshot
has exactly one job per file, never shows two jobs processing at once, and
never shows a later job started (non-pending) before every earlier job is
terminal: jobs are processed strictly sequentially in submission order. -/
theorem c2_sequential_processing (fs : List FileSpec)
    (h : fs.length ≤ MAX_FILES) :
    ∀ st ∈ handleFileUpload fs,
      st.length = fs.length ∧ noTwoProcessing st ∧ startOrdered st := by
  intro st hst
  rw [handleFileUpload, List.take_of_length_le h] at hst
  rcases List.mem_cons.mp hst with rfl | hst
  · refine ⟨initJobs_length fs, props_from_profile _ 0 ?_ ?_⟩
    · intro k hk _
      omega
    · intro k _ hk2
      exact statusAt_initJobs (by rwa [initJobs_length] at hk2)
  · have := runJobs_trace_props fs 0 (initJobs fs)
      (by rw [initJobs_length]; omega)
      (fun k hk _ => absurd hk (by omega))
      (fun k _ hk2 => statusAt_initJobs (by rwa [initJobs_length] at hk2))
      st hst
    rwa [initJobs_length] at this

/-- C2 (witness): the three-file demo batch satisfies the hypothesis, and the
claim holds at its initial published snapshot. -/
theorem c2_sequential_processing_witness :
    demoBatch.length ≤ MAX_FILES ∧
      ((initJobs demoBatch).length = demoBatch.length ∧
        noTwoProcessing (initJobs demoBatch) ∧
        startOrdered (initJobs demoBatch)) :=
  ⟨by decide, c2_sequential_processing demoBatch (by decide)
    (initJobs demoBatch) (by rw [handleFileUpload]; exact List.mem_cons_self _ _)⟩

/-- C3: the final record of every job in a batch is fully determined by that
job's own stage behaviour — a preprocess failure or an OCR failure makes
exactly that job `error` with the stage's message as `failureReason`, a
succeeding job reaches `completed` with its extracted numbers — so the
failure of one job never aborts or skips the rest of the batch. -/
theorem c3_failure_isolation (fs : List FileSpec) (i : ℕ)
    (h1 : i < fs.length) (h2 : fs.length ≤ MAX_FILES) :
    (finalResults fs).getD i dummyJob =
      expectedFrom ((fs.getD i dummyFile).behavior)
        (initJob ((fs.getD i dummyFile).name)) := by
  rw [finalResults, List.take_of_length_le h2]
  have h := runJobs_final_getD fs 0 i (initJobs fs) h1
    (by rw [initJobs_length]; omega)
  simp only [Nat.zero_add] at h
  rw [h, initJobs_getD fs i h1]

/-- C3 (witness): in the demo batch, job 2 of 3 fails at preprocessing and
its final record carries exactly that failure. -/
theorem c3_failure_isolation_witness :
    1 < demoBatch.length ∧ demoBatch.length ≤ MAX_FILES ∧
      (finalResults demoBatch).getD 1 dummyJob =
        expectedFrom ((demoBatch.getD 1 dummyFile).behavior)
          (initJob ((demoBatch.getD 1 dummyFile).name)) :=
  ⟨by decide, by decide, c3_failure_isolation demoBatch 1 (by decide) (by decide)⟩

/-- C4 (counterexample): the text `"98765432100"` contains `"9876543210"` as
a substring, yet the extraction does not contain `"919876543210"` — the
trailing digit defeats the `\b` boundary and the scan captures the later run
`8765432100` instead. -/
theorem c4_digit_run_counterexample :
    (∃ pre post, exDigitText = pre ++ tgtRun ++ post) ∧
      norm12 ∉ extractIndianNumbers exDigitText :=
  ⟨⟨[], ['0'], by decide⟩, by decide⟩

/-- C4 (amended): for every text containing the substring `"9876543210"` at a
position not immediately followed by a word character, the extraction
contains exactly one occurrence of `"919876543210"`. -/
theorem c4_target_extraction (text pre post : List Char)
    (hdec : text = pre ++ tgtRun ++ post) (hb : boundaryOk post = true) :
    norm12 ∈ extractIndianNumbers text ∧
      (extractIndianNumbers text).count norm12 = 1 := by
  have hscan : tgtRun ∈ scan text :=
    mem_scan_of_decomp text.length text pre post le_rfl hdec hb
  have hmem : norm12 ∈ extractIndianNumbers text := by
    rw [extractIndianNumbers, mem_dedupFirst]
    exact List.mem_map.mpr ⟨tgtRun, hscan, by decide⟩
  exact ⟨hmem, count_eq_one_of_nodup_mem _ _ nodup_extract hmem⟩

/-- C4 (witness): the bare text `"9876543210"` decomposes trivially and
yields exactly one `"919876543210"`. -/
theorem c4_target_extraction_witness :
    tgtRun = [] ++ tgtRun ++ [] ∧ boundaryOk [] = true ∧
      (norm12 ∈ extractIndianNumbers tgtRun ∧
        (extractIndianNumbers tgtRun).count norm12 = 1) :=
  ⟨by decide, rfl, c4_target_extraction tgtRun [] [] (by decide) rfl⟩

/-- C5 (counterexample): a text can contain `"+91 9876543210"`,
`"919876543210"` and `"09876543210"` together — here each embedded so the
boundary fails — yet yield zero occurrences of `"919876543210"`, so the
universally quantified "in particular" part of the claim is false. -/
theorem c5_variants_counterexample :
    (hasSubstring needleP91 trickyText = true ∧
      hasSubstring norm12 trickyText = true ∧
      hasSubstring needleZ trickyText = true) ∧
      (extractIndianNumbers trickyText).count norm12 ≠ 1 := by
  decide

/-- C5 (amended): extraction deduplicates normalized results keyed by the
full 12-digit string in first-seen order (it equals the spec's fold that
appends a value the first time it is seen), a text whose scan has no match
yields the empty sequence, and the space-delimited variant text
`"+91 9876543210 919876543210 09876543210"` yields exactly one occurrence of
`"919876543210"`. -/
theorem c5_dedup_first_seen :
    (∀ text : List Char,
      extractIndianNumbers text =
          specFirstSeen ((scan text).map normalizeCap) ∧
        (scan text = [] → extractIndianNumbers text = [])) ∧
      extractIndianNumbers delimText = [norm12] := by
  refine ⟨fun text => ⟨?_, fun h => ?_⟩, by decide⟩
  · rw [extractIndianNumbers, specFirstSeen_eq_dedupFirst]
  · rw [extractIndianNumbers, h]
    rfl

/-- C5 (witness): a text with no digits scans to nothing and extracts to the
empty sequence. -/
theorem c5_dedup_first_seen_witness :
    scan noMatchText = [] ∧ extractIndianNumbers noMatchText = [] :=
  ⟨by decide, (c5_dedup_first_seen.1 noMatchText).2 (by decide)⟩

/-- C6: extraction is idempotent — re-extracting from the space-joined text
of the already-extracted normalized numbers returns the same sequence (hence
the same set) as the original extraction. -/
theorem c6_idempotent (text : List Char) :
    extractIndianNumbers (joinNumbers (extractIndianNumbers text)) =
      extractIndianNumbers text := by
  have hshape : ∀ n ∈ extractIndianNumbers text, IsNum n :=
    fun n hn => extract_mem_isnum hn
  have h1 : (scan (joinNumbers (extractIndianNumbers text))).map normalizeCap =
      extractIndianNumbers text := by
    rw [scan_join _ hshape, List.map_map]
    have hcongr : ∀ n ∈ extractIndianNumbers text,
        (normalizeCap ∘ fun n => n.drop 2) n = id n := by
      intro n hn
      obtain ⟨c, cs, rfl, _, _, _⟩ := extract_mem_isnum hn
      rfl
    rw [List.map_congr_left hcongr, List.map_id]
  conv_lhs => rw [extractIndianNumbers]
  rw [h1, dedupFirst_of_nodup nodup_extract]

/-- C7 (counterexample): for the mid-tone pixel `(51, 51, 52)` the claim's
"otherwise set to avg unchanged" is false of the stored bytes: the code's
`value` is `avg = 154/3`, but the byte the buffer stores is `51`, not
`154/3`. -/
theorem c7_midtone_counterexample :
    ((grayscaleStage (constImg 1 1 pixMid)).pix 0 0).r = 51 ∧
      grayValueQ pixMid = 154 / 3 ∧
      ¬ (((grayscaleStage (constImg 1 1 pixMid)).pix 0 0).r : ℚ) =
          grayValueQ pixMid := by
  have h1 : ((grayscaleStage (constImg 1 1 pixMid)).pix 0 0).r = 51 := by
    rw [grayscaleStage_pix]
    decide
  have h2 : grayValueQ pixMid = 154 / 3 := by
    rw [grayValueQ, avgQ, pixMid]
    norm_num
  refine ⟨h1, h2, ?_⟩
  rw [h1, h2]
  norm_num

/-- C7 (amended): the grayscale stage sets all three color channels of every
pixel to 255 when the channel sum exceeds 384 (avg > 128), to 0 when it is
below 150 (avg < 50), and otherwise to the channel average rounded to the
nearest byte, `(R+G+B+1)/3` — exactly `avg` whenever `R = G = B` — leaving
the alpha channel untouched. -/
theorem c7_threshold_rounded (img : Img) (x y : ℕ) :
    (grayscaleStage img).pix x y =
      { r := natThreeWay ((img.pix x y).r + (img.pix x y).g + (img.pix x y).b),
        g := natThreeWay ((img.pix x y).r + (img.pix x y).g + (img.pix x y).b),
        b := natThreeWay ((img.pix x y).r + (img.pix x y).g + (img.pix x y).b),
        a := (img.pix x y).a } :=
  grayscaleStage_pix img x y

/-- C8 (counterexample): a uniform image need not be gray: the constant pixel
`(60, 70, 80)` has average 70, strictly between 50 and 128, yet the full
enhancement changes the center pixel's red channel (to 70), so the claim as
stated — over all uniform images with mid average — is false. -/
theorem c8_tinted_counterexample :
    (50 < avgQ (Pix.mk 60 70 80 255) ∧ avgQ (Pix.mk 60 70 80 255) < 128) ∧
      ((preprocessImage imgTinted).pix 1 1).r ≠ (imgTinted.pix 1 1).r := by
  constructor
  · constructor <;> (rw [avgQ]; norm_num)
  · have hg : grayscaleStage imgTinted = constImg 3 3 (Pix.mk 70 70 70 255) := by
      rw [imgTinted, grayscaleStage_const]
      exact congrArg (constImg 3 3) (by decide)
    rw [preprocessImage, hg]
    decide

/-- C8 (amended): for a uniform gray image (equal channels `v`, any alpha)
whose average `v` lies strictly between 50 and 128, the full enhancement —
three-way threshold then the 3x3 kernel `[[0,-1,0],[-1,5,-1],[0,-1,0]]` with
out-of-bounds neighbours contributing zero — leaves the color channels of
every non-boundary pixel unchanged at `v`. -/
theorem c8_uniform_gray_fixed_point (w h v a x y : ℕ)
    (h1 : 50 < v) (h2 : v < 128) (hx1 : 1 ≤ x) (hx2 : x + 1 < w)
    (hy1 : 1 ≤ y) (hy2 : y + 1 < h) :
    ((preprocessImage (constImg w h (Pix.mk v v v a))).pix x y).r = v ∧
      ((preprocessImage (constImg w h (Pix.mk v v v a))).pix x y).g = v ∧
      ((preprocessImage (constImg w h (Pix.mk v v v a))).pix x y).b = v := by
  have hmid : natThreeWay (v + v + v) = v := natThreeWay_mid h1 h2
  have hg : grayscaleStage (constImg w h (Pix.mk v v v a)) =
      constImg w h (Pix.mk v v v a) := by
    rw [grayscaleStage_const]
    exact congrArg (constImg w h) (by simp only at hmid ⊢; rw [hmid])
  rw [preprocessImage, hg]
  refine ⟨?_, ?_, ?_⟩ <;>
    · show clampByte _ = v
      rw [convChannel_const _ hx1 (by omega) hy1 (by omega)]
      exact clampByte_natCast (show v ≤ 255 by omega)

/-- C8 (witness): the hypotheses hold for a 3x3 gray image of value 100,
whose center pixel the enhancement leaves at 100. -/
theorem c8_uniform_gray_fixed_point_witness :
    (50 < 100 ∧ 100 < 128 ∧ 1 ≤ 1 ∧ 1 + 1 < 3) ∧
      (((preprocessImage (constImg 3 3 (Pix.mk 100 100 100 7))).pix 1 1).r = 100 ∧
        ((preprocessImage (constImg 3 3 (Pix.mk 100 100 100 7))).pix 1 1).g = 100 ∧
        ((preprocessImage (constImg 3 3 (Pix.mk 100 100 100 7))).pix 1 1).b = 100) :=
  ⟨by decide, c8_uniform_gray_fixed_point 3 3 100 7 1 1 (by decide) (by decide)
    (by decide) (by decide) (by decide) (by decide)⟩

/-- C9 (code bug): `performOCR` does not release the worker on failure — when
`worker.recognize` throws, control jumps to the `catch`, which re-throws the
fixed human-readable message without calling `worker.terminate()`: the trace
records the creation but no termination, while on success the worker is
terminated.  The spec requires release "on success and failure alike", so
the code contradicts it. -/
theorem c9_worker_leak :
    (performOCR engFail).events = [REvent.createW] ∧
      REvent.terminateW ∉ (performOCR engFail).events ∧
      (performOCR engFail).result = StageRes.err ocrFailMsg ∧
      (performOCR ⟨.ok (), .ok []⟩).events =
        [REvent.createW, REvent.terminateW] := by
  decide

/-- C10: the sharpening convolution's output is stored with saturation: for
every pixel and every color channel the stored byte is the raw integer
convolution sum clamped into `[0, 255]` (negative sums store 0, sums above
255 store 255), and the stored alpha channel is always 255. -/
theorem c10_saturating_store (img : Img) (x y : ℕ) :
    ((((sharpen img).pix x y).r : ℤ) =
        max 0 (min 255 (convChannel img Pix.r x y))) ∧
      ((((sharpen img).pix x y).g : ℤ) =
        max 0 (min 255 (convChannel img Pix.g x y))) ∧
      ((((sharpen img).pix x y).b : ℤ) =
        max 0 (min 255 (convChannel img Pix.b x y))) ∧
      ((sharpen img).pix x y).a = 255 :=
  ⟨clampByte_eq _, clampByte_eq _, clampByte_eq _, rfl⟩
